import Mathlib

/-!
Verification of the horcrux threshold file-splitting tool.

The development shallowly embeds the Go sources: byte sequences become
`List Nat` (each element < 256), fallible functions return `Except`/`Option`,
and Go panics are modelled as a distinguished error value.  External library
primitives (Go standard library `crypto/aes`, `encoding/json`,
`compress/gzip`, and the `klauspost/reedsolomon` package) are modelled by
parameters constrained by the documented contracts of those libraries.
-/

set_option maxRecDepth 10000

namespace Horcrux

/-! ## GF(2^8) arithmetic (package shamir)

The Go file defines `add`, `mult` and `div` over precomputed `logTable` and
`expTable` constants.  The table constants themselves are not part of the
sources given under `src/`, only their uses are. -/

/-- Modelled from the spec: the 256-entry `expTable` of GF(2^8) powers of the
generator 3 modulo the irreducible polynomial 0x11B (spec 4.1); the table
constant is not under `src/`.  Entries are packed little-endian, one byte per
entry: entry `k` is `3^k` in the field (entry 255 wraps to `3^0 = 1` and is
never accessed, since every index used by the code is reduced mod 255). -/
def expPacked : Nat := 0x1f652c7b46c241cfda297847cdd4b39170df2a794858a8f8c8d7b29ee5a36120ef351c6423ee3a891868b79de4acf45ca46cbb099772d1b0907f4a563211ffc54c543c8b16f25eaaf6523e858c1b69b80898e7adfbc9d827e2aefac64d5ba9f75dabf9c742ced5bc040c9473de25ec3413f15fa5632e75dc2b76dd24e3a16fba06020e9ae93712fecad92877d2b19fea361d6bb69271d0bf0503010f957c4b59a76db49ceb398817fdcbd6bd0b99e838878281808f1a662d74d3be0a967d44ccdb26ed3b868d14fcc443c140c04f55331e6ab9070d9be6a26eb5937e45c34e5aa66221e0a0602f7a49573d84838e15f3513f8a196722e1aff5533110f050301

/-- Modelled from the spec: the 256-entry `logTable`, the inverse of the
exponential table (spec 4.1); the table constant is not under `src/`.
Packed little-endian, one byte per entry; entry 0 (the undefined logarithm
of 0) holds 0, as in the standard table for this field. -/
def logPacked : Nat := 0x770f7c0808c630d18fe31c5deed4a67a5e3997726b87cb4892e2023d9921144abd3f2565d9e2a14476da2413c843953d15b3f37cdcf95bcfcdcbe619087b2979d2955aa6ca1523b86b160fb5a3ebbccb77b76a42d1f43d8ec49c4176ff60c7fa051a99cb05fcb59f50b16eb7a75d72ce8ade6e7d5e9ae4f74d6eaf450a858af57a773f3e5acd44eca5e9f9b150a792bba3d85fa54286b3a421eb6a3c3486e7e1091882298e225b3628b06bf30fddd6638834640f1d25c1394ced036bddb8f968eda93354582f01224e10f21058a2f657809c99a72a6e44d6a27b9f9b51dc27dc11c69f8c808714cef818d340ee0046403dfee33681bc74bc61a023201190000

/-- Lookup `expTable[k]`. -/
def expT (k : Nat) : Nat := (expPacked >>> (8 * k)) &&& 255

/-- Lookup `logTable[a]`. -/
def logT (a : Nat) : Nat := (logPacked >>> (8 * a)) &&& 255

/-- Embeds `add` from the shamir package: xor of bytes. -/
def addB (a b : Nat) : Nat := a ^^^ b

/-- Embeds `mult` from the shamir package.  The constant-time zero masks of
the Go code (`subtle.ConstantTimeByteEq`) are modelled as plain conditionals
with the same value. -/
def multB (a b : Nat) : Nat :=
  let ret0 := expT ((logT a + logT b) % 255)
  let ret1 := if a = 0 then 0 else ret0
  if b = 0 then 0 else ret1

/-- Embeds `div` from the shamir package.  `none` models the Go
`panic("divide by zero")`; the truncated `%` of Go `int` is `Int.tmod`. -/
def divB (a b : Nat) : Option Nat :=
  if b = 0 then none
  else
    let diff0 : Int := (logT a : Int) - (logT b : Int)
    let diff1 : Int := diff0.tmod 255
    let diff2 : Int := if diff1 < 0 then diff1 + 255 else diff1
    let ret0 := expT diff2.toNat
    some (if a = 0 then 0 else ret0)

theorem expT_lt (k : Nat) : expT k < 256 :=
  Nat.lt_succ_of_le Nat.and_le_right

theorem logT_lt_255 : ∀ a : Fin 256, logT a.val < 255 := by decide

theorem expT_logT : ∀ a : Fin 256, a.val ≠ 0 → expT (logT a.val) = a.val := by decide

theorem logT_expT : ∀ k : Fin 255, logT (expT k.val) = k.val := by decide

theorem expT_ne_zero : ∀ k : Fin 255, expT k.val ≠ 0 := by decide

theorem logT_lt (a : Nat) (ha : a < 256) : logT a < 255 := logT_lt_255 ⟨a, ha⟩

theorem expT_logT_self {a : Nat} (ha : a < 256) (h0 : a ≠ 0) : expT (logT a) = a :=
  expT_logT ⟨a, ha⟩ h0

theorem logT_expT_self {k : Nat} (hk : k < 255) : logT (expT k) = k :=
  logT_expT ⟨k, hk⟩

theorem expT_ne_zero_of_lt {k : Nat} (hk : k < 255) : expT k ≠ 0 :=
  expT_ne_zero ⟨k, hk⟩

theorem multB_lt (a b : Nat) : multB a b < 256 := by
  unfold multB
  by_cases hb : b = 0 <;> by_cases ha : a = 0 <;> simp [ha, hb, expT_lt]

theorem multB_zero_left (b : Nat) : multB 0 b = 0 := by
  unfold multB; by_cases hb : b = 0 <;> simp [hb]

theorem multB_zero_right (a : Nat) : multB a 0 = 0 := by
  unfold multB; simp

theorem multB_comm (a b : Nat) : multB a b = multB b a := by
  unfold multB
  by_cases ha : a = 0 <;> by_cases hb : b = 0 <;> simp [ha, hb, Nat.add_comm]

theorem multB_ne_zero {a b : Nat} (ha : a ≠ 0) (hb : b ≠ 0) : multB a b ≠ 0 := by
  unfold multB
  simp only [ha, hb, if_false]
  exact expT_ne_zero_of_lt (Nat.mod_lt _ (by norm_num))

theorem multB_eq_of_ne {a b : Nat} (ha : a ≠ 0) (hb : b ≠ 0) :
    multB a b = expT ((logT a + logT b) % 255) := by
  unfold multB; simp [ha, hb]

theorem multB_assoc (a b c : Nat) :
    multB (multB a b) c = multB a (multB b c) := by
  by_cases ha : a = 0
  · simp [ha, multB_zero_left]
  by_cases hb : b = 0
  · simp [hb, multB_zero_left, multB_zero_right]
  by_cases hc : c = 0
  · simp [hc, multB_zero_right]
  have hab := multB_ne_zero ha hb
  have hbc := multB_ne_zero hb hc
  rw [multB_eq_of_ne hab hc, multB_eq_of_ne ha hbc, multB_eq_of_ne ha hb,
    multB_eq_of_ne hb hc]
  rw [logT_expT_self (Nat.mod_lt _ (by norm_num)), logT_expT_self (Nat.mod_lt _ (by norm_num))]
  congr 1
  omega

theorem multB_one : ∀ a : Fin 256, multB a.val 1 = a.val := by decide

theorem multB_one_self (a : Nat) (ha : a < 256) : multB a 1 = a := multB_one ⟨a, ha⟩

theorem one_multB (a : Nat) (ha : a < 256) : multB 1 a = a := by
  rw [multB_comm]; exact multB_one ⟨a, ha⟩

/-! Distributivity of `multB` over `addB`.  Multiplication by the generator 3
is xor-linear, every nonzero field element is a power of 3, and multiplication
by a product factors through `multB_assoc`; distributivity follows by
induction on the discrete logarithm. -/

/-- Doubling in the field: shift left and reduce by 0x11B when bit 8 is set. -/
def xtime (b : Nat) : Nat := if 2 * b < 256 then 2 * b else (2 * b) ^^^ 0x11B

theorem xtime_eq : ∀ b : Fin 256,
    xtime b.val = (2 * b.val) ^^^ (if b.val.testBit 7 then 0x11B else 0) := by decide

theorem xtime_eq_nat {b : Nat} (hb : b < 256) :
    xtime b = (2 * b) ^^^ (if b.testBit 7 then 0x11B else 0) := xtime_eq ⟨b, hb⟩

theorem multB_three : ∀ b : Fin 256, multB 3 b.val = xtime b.val ^^^ b.val := by decide

theorem multB_three_nat {b : Nat} (hb : b < 256) : multB 3 b = xtime b ^^^ b :=
  multB_three ⟨b, hb⟩

theorem xor_left_swap (a b c : Nat) : a ^^^ (b ^^^ c) = b ^^^ (a ^^^ c) := by
  rw [← Nat.xor_assoc, Nat.xor_comm a b, Nat.xor_assoc]

theorem xor4 (p q r s : Nat) : (p ^^^ q) ^^^ (r ^^^ s) = (p ^^^ r) ^^^ (q ^^^ s) := by
  rw [Nat.xor_assoc, Nat.xor_assoc, xor_left_swap q r s]

theorem shiftLeft_xor (a b n : Nat) : (a ^^^ b) <<< n = a <<< n ^^^ b <<< n := by
  apply Nat.eq_of_testBit_eq
  intro i
  simp only [Nat.testBit_shiftLeft, Nat.testBit_xor]
  cases Nat.decLt i n with
  | isTrue h => simp [Nat.not_le_of_lt h]
  | isFalse h => simp [Nat.le_of_not_lt h]

theorem two_mul_xor (b c : Nat) : 2 * (b ^^^ c) = (2 * b) ^^^ (2 * c) := by
  have h : ∀ x : Nat, 2 * x = x <<< 1 := by
    intro x; rw [Nat.shiftLeft_eq, pow_one, Nat.mul_comm]
  rw [h, h, h, shiftLeft_xor]

theorem xtime_linear {b c : Nat} (hb : b < 256) (hc : c < 256) :
    xtime (b ^^^ c) = xtime b ^^^ xtime c := by
  have hbc : b ^^^ c < 256 := Nat.xor_lt_two_pow (n := 8) hb hc
  rw [xtime_eq_nat hbc, xtime_eq_nat hb, xtime_eq_nat hc, two_mul_xor, xor4]
  congr 1
  simp only [Nat.testBit_xor]
  rcases hb7 : b.testBit 7 <;> rcases hc7 : c.testBit 7 <;> simp

theorem multB_three_linear {b c : Nat} (hb : b < 256) (hc : c < 256) :
    multB 3 (b ^^^ c) = multB 3 b ^^^ multB 3 c := by
  have hbc : b ^^^ c < 256 := Nat.xor_lt_two_pow (n := 8) hb hc
  rw [multB_three_nat hbc, multB_three_nat hb, multB_three_nat hc,
    xtime_linear hb hc, xor4]

theorem expT_succ : ∀ k : Fin 254, expT (k.val + 1) = multB 3 (expT k.val) := by decide

/-- Multiplication by a fixed power of the generator is xor-linear. -/
theorem multB_expT_linear (k : Nat) (hk : k < 255) {b c : Nat}
    (hb : b < 256) (hc : c < 256) :
    multB (expT k) (b ^^^ c) = multB (expT k) b ^^^ multB (expT k) c := by
  induction k with
  | zero =>
    have h1 : expT 0 = 1 := by decide
    have hbc : b ^^^ c < 256 := Nat.xor_lt_two_pow (n := 8) hb hc
    rw [h1, one_multB _ hbc, one_multB _ hb, one_multB _ hc]
  | succ j ih =>
    have hj : j < 255 := Nat.lt_of_succ_lt hk
    have hj254 : j < 254 := by omega
    have hstep : ∀ x : Nat, multB (expT (j + 1)) x = multB 3 (multB (expT j) x) := by
      intro x
      rw [expT_succ ⟨j, hj254⟩, multB_assoc]
    rw [hstep, hstep, hstep, ih hj, multB_three_linear (multB_lt _ _) (multB_lt _ _)]

/-- Truncated-modulo adjustment performed by the Go `div`: the two-step
`% 255` plus negative correction equals the mathematical residue. -/
theorem tmod_adjust (la lb : Nat) (hla : la < 255) (hlb : lb < 255) :
    (if ((la : Int) - (lb : Int)).tmod 255 < 0
     then ((la : Int) - (lb : Int)).tmod 255 + 255
     else ((la : Int) - (lb : Int)).tmod 255).toNat = (la + 255 - lb) % 255 := by
  by_cases h : lb ≤ la
  · have h1 : (la : Int) - (lb : Int) = ((la - lb : Nat) : Int) := by omega
    rw [h1, Int.tmod_eq_of_lt (by omega) (by omega)]
    split_ifs with hneg
    · omega
    · omega
  · obtain ⟨m, hm⟩ : ∃ m, lb - la = m + 1 := ⟨lb - la - 1, by omega⟩
    have h1 : (la : Int) - (lb : Int) = -((m + 1 : Nat) : Int) := by omega
    have h2 : (-((m + 1 : Nat) : Int)).tmod ((255 : Nat) : Int) =
        -(((m + 1) % 255 : Nat) : Int) := rfl
    rw [h1, show (255 : Int) = ((255 : Nat) : Int) from rfl, h2]
    split_ifs with hneg
    · omega
    · omega

/-- Multiplicative inverse in the exp/log representation, used to relate the
Go `div` to field division: `3 ^ (255 - log a)`. -/
def invB (a : Nat) : Nat := if a = 0 then 0 else expT ((255 - logT a) % 255)

theorem invB_lt (a : Nat) : invB a < 256 := by
  unfold invB
  by_cases h : a = 0 <;> simp [h, expT_lt]

theorem invB_ne_zero {a : Nat} (ha : a ≠ 0) : invB a ≠ 0 := by
  unfold invB
  simp only [ha, if_false]
  exact expT_ne_zero_of_lt (Nat.mod_lt _ (by norm_num))

theorem multB_invB {a : Nat} (ha256 : a < 256) (ha : a ≠ 0) : multB a (invB a) = 1 := by
  have hla : logT a < 255 := logT_lt a ha256
  have hinv : invB a = expT ((255 - logT a) % 255) := by unfold invB; simp [ha]
  rw [hinv, multB_eq_of_ne ha (expT_ne_zero_of_lt (Nat.mod_lt _ (by norm_num))),
    logT_expT_self (Nat.mod_lt _ (by norm_num))]
  have hz : (logT a + (255 - logT a) % 255) % 255 = 0 := by omega
  rw [hz]
  decide

/-- The Go `div` equals multiplication by the inverse whenever the divisor is
nonzero (so no panic occurs). -/
theorem divB_eq_multB_invB {a b : Nat} (ha : a < 256) (hb : b < 256) (hb0 : b ≠ 0) :
    divB a b = some (multB a (invB b)) := by
  unfold divB
  simp only [hb0, if_false]
  congr 1
  by_cases ha0 : a = 0
  · simp [ha0, multB_zero_left]
  · have hinv : invB b = expT ((255 - logT b) % 255) := by unfold invB; simp [hb0]
    simp only [ha0, if_false]
    rw [hinv, multB_eq_of_ne ha0 (expT_ne_zero_of_lt (Nat.mod_lt _ (by norm_num))),
      logT_expT_self (Nat.mod_lt _ (by norm_num))]
    rw [tmod_adjust _ _ (logT_lt a ha) (logT_lt b hb)]
    have h1 := logT_lt a ha
    have h2 := logT_lt b hb
    congr 1
    omega

theorem multB_linear {a b c : Nat} (ha256 : a < 256) (hb : b < 256) (hc : c < 256) :
    multB a (b ^^^ c) = multB a b ^^^ multB a c := by
  by_cases ha : a = 0
  · simp [ha, multB_zero_left]
  have hexp : expT (logT a) = a := expT_logT_self ha256 ha
  have hlog : logT a < 255 := logT_lt a ha256
  calc multB a (b ^^^ c) = multB (expT (logT a)) (b ^^^ c) := by rw [hexp]
    _ = multB (expT (logT a)) b ^^^ multB (expT (logT a)) c :=
        multB_expT_linear _ hlog hb hc
    _ = multB a b ^^^ multB a c := by rw [hexp]


/-! ## GF(2^8) as a Mathlib field

A separate carrier type (bytes with their bound) lets us install a `Field`
instance whose operations are exactly the byte-level table operations, so
that Mathlib Lagrange interpolation applies to the code as written. -/

def GF : Type := Fin 256

namespace GF

instance : DecidableEq GF := inferInstanceAs (DecidableEq (Fin 256))

/-- Underlying byte of a field element. -/
def val (a : GF) : Nat := Fin.val a

theorem val_lt (a : GF) : val a < 256 := Fin.isLt a

theorem ext {a b : GF} (h : val a = val b) : a = b := Fin.ext h

/-- Build a field element from a byte. -/
def mk (n : Nat) (h : n < 256) : GF := ⟨n, h⟩

theorem val_mk (n : Nat) (h : n < 256) : val (mk n h) = n := rfl

instance : Zero GF := ⟨mk 0 (by norm_num)⟩

instance : One GF := ⟨mk 1 (by norm_num)⟩

instance : Add GF :=
  ⟨fun a b => mk (addB (val a) (val b)) (Nat.xor_lt_two_pow (n := 8) (val_lt a) (val_lt b))⟩

instance : Mul GF := ⟨fun a b => mk (multB (val a) (val b)) (multB_lt _ _)⟩

instance : Neg GF := ⟨fun a => a⟩

instance : Inv GF := ⟨fun a => mk (invB (val a)) (invB_lt _)⟩

theorem val_add (a b : GF) : val (a + b) = addB (val a) (val b) := rfl

theorem val_mul (a b : GF) : val (a * b) = multB (val a) (val b) := rfl

theorem val_neg (a : GF) : val (-a) = val a := rfl

theorem val_inv (a : GF) : val a⁻¹ = invB (val a) := rfl

theorem val_zero : val (0 : GF) = 0 := rfl

theorem val_one : val (1 : GF) = 1 := rfl

theorem val_eq_zero_iff {a : GF} : val a = 0 ↔ a = 0 :=
  ⟨fun h => ext h, fun h => by rw [h]; rfl⟩

instance instField : Field GF where
  neg a := a
  sub a b := a + b
  sub_eq_add_neg a b := rfl
  nsmul := nsmulRec
  zsmul := zsmulRec
  add_assoc a b c := by exact ext (Nat.xor_assoc _ _ _)
  zero_add a := by exact ext (Nat.zero_xor _)
  add_zero a := by exact ext (Nat.xor_zero _)
  add_comm a b := by exact ext (Nat.xor_comm _ _)
  neg_add_cancel a := by exact ext (Nat.xor_self _)
  mul_assoc a b c := by exact ext (multB_assoc _ _ _)
  one_mul a := by exact ext (one_multB _ (val_lt a))
  mul_one a := by exact ext (multB_one_self _ (val_lt a))
  mul_comm a b := by exact ext (multB_comm _ _)
  zero_mul a := by exact ext (multB_zero_left _)
  mul_zero a := by exact ext (multB_zero_right (val a))
  left_distrib a b c := by exact ext (multB_linear (val_lt a) (val_lt b) (val_lt c))
  right_distrib a b c := by
    have h : ∀ x y : GF, x * y = y * x := fun x y => ext (multB_comm _ _)
    rw [h (a + b) c, h a c, h b c]
    exact ext (multB_linear (val_lt c) (val_lt a) (val_lt b))
  exists_pair_ne := ⟨0, 1, by decide⟩
  mul_inv_cancel a ha := by exact ext (multB_invB (val_lt a) (fun h => ha (ext h)))
  inv_zero := by exact ext rfl
  nnqsmul := _
  qsmul := _

theorem sub_eq_add (a b : GF) : a - b = a + b := rfl

end GF


/-! ## Shamir share engine (package shamir) -/

/-- Coefficient list built by `makePolynomial`: the intercept followed by
`threshold - 1` random bytes (`rnd k` models the k-th byte drawn from
`crypto/rand` into `coefficients[1:]`). -/
def polyCoeffs (threshold : Nat) (rnd : Nat → Nat) (intercept : Nat) : List Nat :=
  intercept :: (List.range (threshold - 1)).map rnd

/-- Embeds `evaluate`: special case at x = 0, otherwise Horner evaluation
from the top coefficient down (the loop from `degree - 1` to `0` is the
right fold over the list without its last element, seeded with the last
coefficient).  The coefficient list is never empty in the code. -/
def evaluate (coeffs : List Nat) (x : Nat) : Nat :=
  if x = 0 then coeffs.headD 0
  else coeffs.dropLast.foldr (fun coeff out => addB (multB out x) coeff) (coeffs.getLastD 0)

/-- Embeds `shamir.Split`.  `rnd idx k` is the k-th random coefficient for
secret byte `idx`; share `i` is the list of per-byte evaluations at
`x = i + 1` with the trailing x-coordinate byte `i + 1`. -/
def splitShamir (secret : List Nat) (parts threshold : Nat)
    (rnd : Nat → Nat → Nat) : Except String (List (List Nat)) :=
  if parts < threshold then .error "parts cannot be less than threshold"
  else if 255 < parts then .error "parts cannot exceed 255"
  else if threshold < 2 then .error "threshold must be at least 2"
  else if secret.length = 0 then .error "cannot split empty secret"
  else .ok ((List.range parts).map (fun i =>
    (List.range secret.length).map
      (fun idx => evaluate (polyCoeffs threshold (rnd idx) (secret.getD idx 0)) (i + 1))
    ++ [i + 1]))

/-- Embeds the inner basis loop of `interpolatePolynomial`; `none` is a
propagated division panic. -/
def interpBasis (xs : List Nat) (x : Nat) (i : Nat) : Option Nat :=
  (List.range xs.length).foldlM
    (fun basis j =>
      if i = j then some basis
      else do
        let term ← divB (addB x (xs.getD j 0)) (addB (xs.getD i 0) (xs.getD j 0))
        some (multB basis term))
    1

/-- Embeds `interpolatePolynomial`. -/
def interpolatePolynomial (xs ys : List Nat) (x : Nat) : Option Nat :=
  (List.range xs.length).foldlM
    (fun result i => do
      let basis ← interpBasis xs x i
      some (addB result (multB (ys.getD i 0) basis)))
    0

/-- Error outcome of `shamir.Combine`: a returned error, or a Go panic. -/
inductive CombineErr where
  | err : String → CombineErr
  | panic : String → CombineErr
deriving DecidableEq

/-- Runs the per-byte interpolation loop of `Combine`; `none` is a
propagated panic from the first failing byte. -/
def collectBytes (f : Nat → Option Nat) : List Nat → Option (List Nat)
  | [] => some []
  | i :: rest => do
      let v ← f i
      let vs ← collectBytes f rest
      some (v :: vs)

/-- Embeds `shamir.Combine`.  `make([]byte, firstLen - 1)` panics in Go when
`parts[0]` is empty; the length-mismatch check runs while the x-coordinates
are collected, before any interpolation; `firstLen` and `xSamples` are
inlined. -/
def combineShamir (parts : List (List Nat)) : Except CombineErr (List Nat) :=
  if parts.length < 2 then
    .error (.err "less than two parts cannot reconstruct secret")
  else if (parts.headD []).length = 0 then
    .error (.panic "makeslice: len out of range")
  else if parts.any (fun p => p.length ≠ (parts.headD []).length) then
    .error (.err "parts length mismatch")
  else
    match collectBytes
        (fun idx =>
          interpolatePolynomial
            (parts.map (fun p => p.getD ((parts.headD []).length - 1) 0))
            (parts.map (fun p => p.getD idx 0)) 0)
        (List.range ((parts.headD []).length - 1)) with
    | some secret => .ok secret
    | none => .error (.panic "divide by zero")

/-! Generic fold bridges. -/

theorem foldlM_option_of_forall {α β : Type} (l : List α) (f : β → α → Option β)
    (g : β → α → β) (h : ∀ b a, a ∈ l → f b a = some (g b a)) (b : β) :
    l.foldlM f b = some (l.foldl g b) := by
  induction l generalizing b with
  | nil => rfl
  | cons y t ih =>
    have hy : f b y = some (g b y) := h b y (List.mem_cons_self y t)
    simp only [List.foldlM, List.foldl, hy]
    exact ih (fun c a ha => h c a (List.mem_cons_of_mem y ha)) (g b y)

theorem foldl_add_range {M : Type} [AddCommMonoid M] (f : Nat → M) (n : Nat) (b : M) :
    (List.range n).foldl (fun acc i => acc + f i) b = b + ∑ i ∈ Finset.range n, f i := by
  induction n generalizing b with
  | zero => simp
  | succ m ih =>
    rw [List.range_succ, List.foldl_append, ih, Finset.sum_range_succ]
    simp [add_assoc]

theorem foldl_mul_skip {M : Type} [CommMonoid M] (g : Nat → M) (n i : Nat) (b : M) :
    (List.range n).foldl (fun acc j => if i = j then acc else acc * g j) b
      = b * ∏ j ∈ (Finset.range n).erase i, g j := by
  induction n generalizing b with
  | zero => simp
  | succ m ih =>
    rw [List.range_succ, List.foldl_append, ih]
    simp only [List.foldl_cons, List.foldl_nil]
    by_cases him : i = m
    · subst him
      rw [if_pos rfl, Finset.range_succ, Finset.erase_insert (Finset.not_mem_range_self),
        Finset.erase_eq_of_not_mem (Finset.not_mem_range_self)]
    · have hm : (Finset.range (m + 1)).erase i
          = insert m ((Finset.range m).erase i) := by
        rw [Finset.range_succ, Finset.erase_insert_of_ne (fun h => him h.symm)]
      rw [if_neg him, hm, Finset.prod_insert (by simp), mul_assoc,
        mul_comm (∏ j ∈ (Finset.range m).erase i, g j) (g m)]

theorem xor_eq_zero_iff {a b : Nat} : a ^^^ b = 0 ↔ a = b := by
  constructor
  · intro h
    have h2 : a ^^^ b ^^^ b = 0 ^^^ b := by rw [h]
    rwa [Nat.xor_assoc, Nat.xor_self, Nat.xor_zero, Nat.zero_xor] at h2
  · intro h; subst h; exact Nat.xor_self a

theorem getD_lt_256 {l : List Nat} (hl : ∀ b ∈ l, b < 256) (i : Nat) :
    l.getD i 0 < 256 := by
  by_cases h : i < l.length
  · refine hl _ ?_
    rw [List.getD_eq_getElem?_getD, List.getElem?_eq_getElem h]
    exact List.getElem_mem h
  · rw [List.getD_eq_getElem?_getD, List.getElem?_eq_none (by omega)]
    norm_num

/-- Byte list viewed as a map into the field (out of range gives 0). -/
def gfAt (l : List Nat) (hl : ∀ b ∈ l, b < 256) (i : Nat) : GF :=
  GF.mk (l.getD i 0) (getD_lt_256 hl i)

/-- Generic lifting of a byte-level fold to a field-level fold. -/
theorem foldl_val {α : Type} (l : List α) (fG : GF → α → GF) (fB : Nat → α → Nat)
    (hcomp : ∀ (g : GF) (a : α), a ∈ l → fB (GF.val g) a = GF.val (fG g a)) (g0 : GF) :
    l.foldl fB (GF.val g0) = GF.val (l.foldl fG g0) := by
  induction l generalizing g0 with
  | nil => rfl
  | cons y t ih =>
    simp only [List.foldl_cons]
    rw [hcomp g0 y (List.mem_cons_self y t)]
    exact ih (fun g a ha => hcomp g a (List.mem_cons_of_mem y ha)) (fG g0 y)

/-- The field-level Lagrange basis value that the inner loop computes. -/
def lagrangeBasisGF (n : Nat) (vx : Nat → GF) (x : GF) (i : Nat) : GF :=
  ∏ j ∈ (Finset.range n).erase i, ((x + vx j) * (vx i + vx j)⁻¹)

/-- The field-level interpolation value that the outer loop computes. -/
def interpGF (n : Nat) (vx vy : Nat → GF) (x : GF) : GF :=
  ∑ i ∈ Finset.range n, vy i * lagrangeBasisGF n vx x i

theorem interpBasis_eq (xs : List Nat) (x : Nat) (i : Nat)
    (hxs : ∀ b ∈ xs, b < 256) (hx : x < 256)
    (hdist : ∀ j k, j < xs.length → k < xs.length → j ≠ k →
      xs.getD j 0 ≠ xs.getD k 0) (hi : i < xs.length) :
    interpBasis xs x i
      = some (GF.val (lagrangeBasisGF xs.length (gfAt xs hxs) (GF.mk x hx) i)) := by
  unfold interpBasis
  set fB : Nat → Nat → Nat := fun basis j =>
    if i = j then basis
    else multB basis (multB (addB x (xs.getD j 0)) (invB (addB (xs.getD i 0) (xs.getD j 0))))
  have hstep : ∀ (b : Nat) (j : Nat), j ∈ List.range xs.length →
      (if i = j then some b
       else do
         let term ← divB (addB x (xs.getD j 0)) (addB (xs.getD i 0) (xs.getD j 0))
         some (multB b term)) = some (fB b j) := by
    intro b j hj
    by_cases hij : i = j
    · simp [fB, hij]
    · have hjlt : j < xs.length := List.mem_range.mp hj
      have hne : xs.getD i 0 ≠ xs.getD j 0 := hdist i j hi hjlt hij
      have hdenom : addB (xs.getD i 0) (xs.getD j 0) ≠ 0 :=
        fun h => hne (xor_eq_zero_iff.mp h)
      have hnum_lt : addB x (xs.getD j 0) < 256 :=
        Nat.xor_lt_two_pow (n := 8) hx (getD_lt_256 hxs j)
      have hden_lt : addB (xs.getD i 0) (xs.getD j 0) < 256 :=
        Nat.xor_lt_two_pow (n := 8) (getD_lt_256 hxs i) (getD_lt_256 hxs j)
      rw [if_neg hij]
      rw [divB_eq_multB_invB hnum_lt hden_lt hdenom]
      simp [fB, hij]
  rw [foldlM_option_of_forall _ _ fB hstep 1]
  congr 1
  have hone : (1 : Nat) = GF.val (1 : GF) := rfl
  rw [hone, foldl_val (List.range xs.length)
    (fun g j => if i = j then g
      else g * ((GF.mk x hx + gfAt xs hxs j) * (gfAt xs hxs i + gfAt xs hxs j)⁻¹))
    fB ?hcomp 1]
  · rw [foldl_mul_skip, one_mul]
    rfl
  · intro g j hj
    by_cases hij : i = j
    · simp [fB, hij]
    · simp only [fB, if_neg hij]
      rfl

theorem interpolatePolynomial_eq (xs ys : List Nat) (x : Nat)
    (hxs : ∀ b ∈ xs, b < 256) (hys : ∀ b ∈ ys, b < 256) (hx : x < 256)
    (hdist : ∀ j k, j < xs.length → k < xs.length → j ≠ k →
      xs.getD j 0 ≠ xs.getD k 0) :
    interpolatePolynomial xs ys x
      = some (GF.val (interpGF xs.length (gfAt xs hxs) (gfAt ys hys) (GF.mk x hx))) := by
  unfold interpolatePolynomial
  set fB : Nat → Nat → Nat := fun result i =>
    addB result (multB (ys.getD i 0)
      (GF.val (lagrangeBasisGF xs.length (gfAt xs hxs) (GF.mk x hx) i)))
  have hstep : ∀ (b : Nat) (i : Nat), i ∈ List.range xs.length →
      (do
        let basis ← interpBasis xs x i
        some (addB b (multB (ys.getD i 0) basis))) = some (fB b i) := by
    intro b i hi
    rw [interpBasis_eq xs x i hxs hx hdist (List.mem_range.mp hi)]
    rfl
  rw [foldlM_option_of_forall _ _ fB hstep 0]
  congr 1
  have hzero : (0 : Nat) = GF.val (0 : GF) := rfl
  rw [hzero, foldl_val (List.range xs.length)
    (fun g i => g + gfAt ys hys i * lagrangeBasisGF xs.length (gfAt xs hxs) (GF.mk x hx) i)
    fB ?hcomp 0]
  · rw [foldl_add_range, zero_add]
    rfl
  · intro g i hi
    rfl

/-- Total byte-to-field conversion (reduces mod 256; on actual bytes this is
the identity). -/
def gfOf (a : Nat) : GF := GF.mk (a % 256) (Nat.mod_lt _ (by norm_num))

theorem gfOf_val {a : Nat} (ha : a < 256) : GF.val (gfOf a) = a := by
  unfold gfOf
  rw [GF.val_mk, Nat.mod_eq_of_lt ha]

theorem gfAt_eq_gfOf (l : List Nat) (hl : ∀ b ∈ l, b < 256) (i : Nat) :
    gfAt l hl i = gfOf (l.getD i 0) :=
  GF.ext (by rw [gfOf_val (getD_lt_256 hl i)]; rfl)

open Polynomial in
/-- The field-level interpolation sum is the evaluation of the Mathlib
Lagrange interpolant (subtraction is addition in characteristic two). -/
theorem interpGF_eq_eval (n : Nat) (vx vy : Nat → GF) (x : GF) :
    interpGF n vx vy x = (Lagrange.interpolate (Finset.range n) vx vy).eval x := by
  rw [Lagrange.interpolate_apply, Polynomial.eval_finset_sum]
  unfold interpGF
  refine Finset.sum_congr rfl (fun i hi => ?_)
  rw [Polynomial.eval_mul, Polynomial.eval_C]
  congr 1
  unfold lagrangeBasisGF Lagrange.basis
  rw [Polynomial.eval_prod]
  refine Finset.prod_congr rfl (fun j hj => ?_)
  unfold Lagrange.basisDivisor
  rw [Polynomial.eval_mul, Polynomial.eval_C, Polynomial.eval_sub, Polynomial.eval_X,
    Polynomial.eval_C, GF.sub_eq_add, GF.sub_eq_add, mul_comm]

/-- Value of the polynomial with byte coefficients `c` (constant term first)
at `x`, as a power sum. -/
def polyEvalSum (c : List Nat) (x : GF) : GF :=
  ∑ i ∈ Finset.range c.length, gfOf (c.getD i 0) * x ^ i

theorem foldr_horner (c : List Nat) (x : GF) :
    c.foldr (fun a acc => gfOf a + x * acc) 0 = polyEvalSum c x := by
  induction c with
  | nil => simp [polyEvalSum]
  | cons a t ih =>
    simp only [List.foldr_cons, ih]
    unfold polyEvalSum
    rw [List.length_cons, Finset.sum_range_succ' _ t.length]
    have h0 : gfOf ((a :: t).getD 0 0) * x ^ 0 = gfOf a := by
      rw [pow_zero, mul_one]; rfl
    have hsucc : ∀ i, gfOf ((a :: t).getD (i + 1) 0) * x ^ (i + 1)
        = gfOf (t.getD i 0) * x ^ (i + 1) := fun i => rfl
    simp only [hsucc, h0]
    rw [add_comm, Finset.mul_sum]
    congr 1
    refine Finset.sum_congr rfl (fun i hi => ?_)
    ring

theorem getD_eq_getElem {l : List Nat} {i : Nat} (h : i < l.length) :
    l.getD i 0 = l[i] := by
  rw [List.getD_eq_getElem?_getD, List.getElem?_eq_getElem h]
  rfl

theorem map_getD {l : List Nat} (f : Nat → Nat) {i : Nat} (hi : i < l.length) :
    (l.map f).getD i 0 = f (l.getD i 0) := by
  rw [List.getD_eq_getElem?_getD, List.getD_eq_getElem?_getD, List.getElem?_map,
    List.getElem?_eq_getElem hi]
  rfl

theorem nodup_getD_inj {l : List Nat} (h : l.Nodup) {j k : Nat}
    (hj : j < l.length) (hk : k < l.length) (hjk : l.getD j 0 = l.getD k 0) : j = k := by
  rw [getD_eq_getElem hj, getD_eq_getElem hk] at hjk
  exact h.getElem_inj_iff.mp hjk

theorem foldr_val {α : Type} (l : List α) (fG : α → GF → GF) (fB : α → Nat → Nat)
    (hcomp : ∀ (a : α) (g : GF), a ∈ l → fB a (GF.val g) = GF.val (fG a g)) (g0 : GF) :
    l.foldr fB (GF.val g0) = GF.val (l.foldr fG g0) := by
  induction l with
  | nil => rfl
  | cons y t ih =>
    simp only [List.foldr_cons]
    rw [ih (fun a g ha => hcomp a g (List.mem_cons_of_mem y ha))]
    exact hcomp y _ (List.mem_cons_self y t)

/-- The Go Horner loop equals the full right fold: the loop from the second
highest coefficient down, seeded with the top coefficient, is the fold over
the whole list seeded with zero. -/
theorem evaluate_eq_foldr (c : List Nat) (hne : c ≠ []) (x : Nat) :
    evaluate c x = c.foldr (fun coeff out => addB (multB out x) coeff) 0 := by
  obtain ⟨a, t, rfl⟩ := List.exists_cons_of_ne_nil hne
  unfold evaluate
  by_cases hx : x = 0
  · subst hx
    rw [if_pos rfl]
    have hfold : ∀ (l : List Nat),
        l.foldr (fun coeff out => addB (multB out 0) coeff) 0 = l.headD 0 := by
      intro l
      cases l with
      | nil => rfl
      | cons b u =>
        simp only [List.foldr_cons, List.headD_cons]
        rw [multB_zero_right]
        exact Nat.zero_xor _
    rw [hfold]
  · rw [if_neg hx]
    induction t generalizing a with
    | nil =>
      have hdl : ([a] : List Nat).dropLast = [] := rfl
      have hgl : ([a] : List Nat).getLastD 0 = a := rfl
      rw [hdl, hgl, List.foldr_nil, List.foldr_cons, List.foldr_nil, multB_zero_left]
      exact (Nat.zero_xor _).symm
    | cons b u ih =>
      have hdl : (a :: b :: u).dropLast = a :: (b :: u).dropLast := rfl
      have hgl : (a :: b :: u).getLastD 0 = (b :: u).getLastD 0 := rfl
      rw [hdl, hgl, List.foldr_cons, ih b (List.cons_ne_nil b u)]
      rfl

/-- The Go `evaluate` on bytes is the field polynomial value. -/
theorem evaluate_eq_val (c : List Nat) (hc : ∀ b ∈ c, b < 256) (hne : c ≠ [])
    (x : GF) : evaluate c (GF.val x) = GF.val (polyEvalSum c x) := by
  rw [evaluate_eq_foldr c hne, ← foldr_horner]
  have hcomp : ∀ (a : Nat) (g : GF), a ∈ c →
      (fun coeff out => addB (multB out (GF.val x)) coeff) a (GF.val g)
        = GF.val ((fun a acc => gfOf a + x * acc) a g) := by
    intro a g ha
    show addB (multB (GF.val g) (GF.val x)) a = GF.val (gfOf a + x * g)
    rw [GF.val_add, GF.val_mul, gfOf_val (hc a ha)]
    unfold addB
    rw [Nat.xor_comm, multB_comm]
  have h0 : (0 : Nat) = GF.val (0 : GF) := rfl
  rw [h0, foldr_val c (fun a acc => gfOf a + x * acc) _ hcomp 0]

theorem evaluate_lt (c : List Nat) (hc : ∀ b ∈ c, b < 256) (hne : c ≠ [])
    {x : Nat} (hx : x < 256) : evaluate c x < 256 := by
  have h : x = GF.val (GF.mk x hx) := rfl
  rw [h, evaluate_eq_val c hc hne]
  exact GF.val_lt _

open Polynomial in
/-- Formal polynomial with byte coefficients, constant term first. -/
noncomputable def pOfC (c : List Nat) : Polynomial GF :=
  ∑ i ∈ Finset.range c.length, Polynomial.C (gfOf (c.getD i 0)) * Polynomial.X ^ i

theorem pOfC_degree_lt (c : List Nat) : (pOfC c).degree < (c.length : Nat) := by
  unfold pOfC
  rw [Finset.sum_range fun i => Polynomial.C (gfOf (c.getD i 0)) * Polynomial.X ^ i]
  exact Polynomial.degree_sum_fin_lt _

theorem pOfC_eval (c : List Nat) (x : GF) : (pOfC c).eval x = polyEvalSum c x := by
  unfold pOfC polyEvalSum
  rw [Polynomial.eval_finset_sum]
  refine Finset.sum_congr rfl (fun i hi => ?_)
  rw [Polynomial.eval_mul, Polynomial.eval_C, Polynomial.eval_pow, Polynomial.eval_X]

theorem polyEvalSum_zero (c : List Nat) (hne : c ≠ []) :
    polyEvalSum c 0 = gfOf (c.getD 0 0) := by
  unfold polyEvalSum
  rw [Finset.sum_eq_single 0]
  · rw [pow_zero, mul_one]
  · intro i hi h0
    rw [zero_pow h0, mul_zero]
  · intro h
    exact absurd (Finset.mem_range.mpr (List.length_pos.mpr hne)) h

theorem gfOf_val_self (g : GF) : gfOf (GF.val g) = g :=
  GF.ext (gfOf_val (GF.val_lt g))

/-- Lagrange interpolation at x = 0 over distinct byte nodes recovers the
constant coefficient of the evaluated polynomial: the byte-level statement. -/
theorem interpolate_at_zero_recovers
    (xs : List Nat) (hxs : ∀ b ∈ xs, b < 256) (hnodup : xs.Nodup)
    (coeffs : List Nat) (hc : ∀ b ∈ coeffs, b < 256) (hne : coeffs ≠ [])
    (hdeg : coeffs.length ≤ xs.length) :
    interpolatePolynomial xs (xs.map (fun xv => evaluate coeffs xv)) 0
      = some (coeffs.getD 0 0) := by
  have hys : ∀ b ∈ xs.map (fun xv => evaluate coeffs xv), b < 256 := by
    intro b hb
    obtain ⟨xv, hxv, rfl⟩ := List.mem_map.mp hb
    exact evaluate_lt coeffs hc hne (hxs xv hxv)
  have hdist : ∀ j k, j < xs.length → k < xs.length → j ≠ k →
      xs.getD j 0 ≠ xs.getD k 0 :=
    fun j k hj hk hjk he => hjk (nodup_getD_inj hnodup hj hk he)
  rw [interpolatePolynomial_eq xs _ 0 hxs hys (by norm_num) hdist]
  congr 1
  have hmk0 : GF.mk 0 (by norm_num) = (0 : GF) := rfl
  rw [hmk0, interpGF_eq_eval]
  set n := xs.length
  set vx := gfAt xs hxs
  have hinj : Set.InjOn vx (Finset.range n) := by
    intro i hi j hj hij
    have hi2 : i < n := Finset.mem_range.mp (Finset.mem_coe.mp hi)
    have hj2 : j < n := Finset.mem_range.mp (Finset.mem_coe.mp hj)
    exact nodup_getD_inj hnodup hi2 hj2 (congrArg GF.val hij)
  have hvy : ∀ i ∈ Finset.range n,
      gfAt (xs.map (fun xv => evaluate coeffs xv)) hys i
        = (pOfC coeffs).eval (vx i) := by
    intro i hi
    have hi2 : i < xs.length := Finset.mem_range.mp hi
    rw [gfAt_eq_gfOf, map_getD _ hi2]
    have hval : xs.getD i 0 = GF.val (vx i) := rfl
    rw [hval, evaluate_eq_val coeffs hc hne, gfOf_val_self, pOfC_eval]
  rw [Lagrange.interpolate_eq_of_values_eq_on _ _ hvy]
  have hdeglt : (pOfC coeffs).degree < ((Finset.range n).card : Nat) := by
    rw [Finset.card_range]
    exact lt_of_lt_of_le (pOfC_degree_lt coeffs) (by exact_mod_cast hdeg)
  rw [← Lagrange.eq_interpolate hinj hdeglt]
  rw [pOfC_eval, polyEvalSum_zero coeffs hne, gfOf_val (getD_lt_256 hc 0)]

theorem collectBytes_of_forall (l : List Nat) (f : Nat → Option Nat)
    (g : Nat → Nat) (h : ∀ a ∈ l, f a = some (g a)) :
    collectBytes f l = some (l.map g) := by
  induction l with
  | nil => rfl
  | cons y t ih =>
    have hy : f y = some (g y) := h y (List.mem_cons_self y t)
    have ht := ih (fun a ha => h a (List.mem_cons_of_mem y ha))
    simp [collectBytes, hy, ht]

theorem rangeMap_getD {α : Type} (f : Nat → α) {n i : Nat} (hi : i < n) (d : α) :
    ((List.range n).map f).getD i d = f i := by
  rw [List.getD_eq_getElem?_getD, List.getElem?_map, List.getElem?_range hi]
  rfl

theorem append_singleton_getD_last (l : List Nat) (x : Nat) :
    (l ++ [x]).getD l.length 0 = x := by
  rw [List.getD_eq_getElem?_getD, List.getElem?_append_right (le_refl _)]
  simp

theorem append_singleton_getD_lt (l : List Nat) (x : Nat) {i : Nat} (hi : i < l.length) :
    (l ++ [x]).getD i 0 = l.getD i 0 := by
  rw [List.getD_eq_getElem?_getD, List.getElem?_append_left hi,
    List.getD_eq_getElem?_getD]

theorem map_range_getD (l : List Nat) :
    (List.range l.length).map (fun i => l.getD i 0) = l := by
  apply List.ext_getElem
  · simp
  · intro i hi hl
    rw [List.getElem_map, List.getElem_range]
    exact (getD_eq_getElem (by simpa using hl)).trans (by simp)

/-- C1: for every n and t with 2 ≤ t ≤ n ≤ 255 and every non-empty byte
sequence s, `shamir.Split(s, n, t)` succeeds and `shamir.Combine` applied to
any t-element subset of the returned shares yields exactly s.  `rnd idx k`
supplies the random polynomial coefficients drawn by `makePolynomial`, and
`pick` lists the (distinct) positions of the chosen subset. -/
theorem shamir_split_combine_roundtrip
    (s : List Nat) (n t : Nat) (rnd : Nat → Nat → Nat)
    (hsne : s ≠ []) (hsB : ∀ b ∈ s, b < 256) (hrnd : ∀ i k, rnd i k < 256)
    (h2 : 2 ≤ t) (htn : t ≤ n) (hn : n ≤ 255)
    (pick : List Nat) (hnodup : pick.Nodup) (hlen : pick.length = t)
    (hmem : ∀ i ∈ pick, i < n) :
    ∃ shares, splitShamir s n t rnd = Except.ok shares ∧
      combineShamir (pick.map (fun i => shares.getD i [])) = Except.ok s := by
  have hslen : s.length ≠ 0 := fun h => hsne (List.eq_nil_of_length_eq_zero h)
  set shareFn : Nat → List Nat := fun i =>
    (List.range s.length).map
      (fun idx => evaluate (polyCoeffs t (rnd idx) (s.getD idx 0)) (i + 1))
    ++ [i + 1] with hshareFn
  have hsplit : splitShamir s n t rnd = Except.ok ((List.range n).map shareFn) := by
    unfold splitShamir
    rw [if_neg (by omega), if_neg (by omega), if_neg (by omega), if_neg hslen]
  refine ⟨(List.range n).map shareFn, hsplit, ?_⟩
  set parts := pick.map (fun i => ((List.range n).map shareFn).getD i []) with hpartsdef
  have hparts : parts = pick.map shareFn := by
    rw [hpartsdef]
    apply List.map_congr_left
    intro i hi
    exact rangeMap_getD shareFn (hmem i hi) []
  have hsharelen : ∀ i, (shareFn i).length = s.length + 1 := by
    intro i
    rw [hshareFn]
    simp
  have hplen : parts.length = t := by
    rw [hparts, List.length_map, hlen]
  have hpne : parts ≠ [] := by
    intro h
    rw [h] at hplen
    simp at hplen
    omega
  have hplen2 : ¬(parts.length < 2) := by omega
  have hfirst : (parts.headD []).length = s.length + 1 := by
    obtain ⟨p0, rest, hp⟩ := List.exists_cons_of_ne_nil hpne
    have hp0 : p0 ∈ parts := by rw [hp]; exact List.mem_cons_self _ _
    rw [hparts] at hp0
    obtain ⟨i, hi, rfl⟩ := List.mem_map.mp hp0
    rw [hp]
    exact hsharelen i
  have hsharelast : ∀ i, (shareFn i).getD s.length 0 = i + 1 := by
    intro i
    rw [hshareFn]
    have hlen2 : ((List.range s.length).map
        (fun idx => evaluate (polyCoeffs t (rnd idx) (s.getD idx 0)) (i + 1))).length
        = s.length := by simp
    have hlast := append_singleton_getD_last
      ((List.range s.length).map
        (fun idx => evaluate (polyCoeffs t (rnd idx) (s.getD idx 0)) (i + 1)))
      (i + 1)
    rw [hlen2] at hlast
    exact hlast
  have hshareat : ∀ i idx, idx < s.length → (shareFn i).getD idx 0
      = evaluate (polyCoeffs t (rnd idx) (s.getD idx 0)) (i + 1) := by
    intro i idx hidx
    rw [hshareFn]
    have hlen2 : ((List.range s.length).map
        (fun j => evaluate (polyCoeffs t (rnd j) (s.getD j 0)) (i + 1))).length
        = s.length := by simp
    rw [append_singleton_getD_lt _ _ (by omega), rangeMap_getD _ hidx]
  have hxsamples : parts.map (fun p => p.getD s.length 0)
      = pick.map (fun i => i + 1) := by
    rw [hparts, List.map_map]
    exact List.map_congr_left (fun i hi => hsharelast i)
  have hbyte : ∀ idx ∈ List.range s.length,
      interpolatePolynomial (parts.map (fun p => p.getD s.length 0))
        (parts.map (fun p => p.getD idx 0)) 0 = some (s.getD idx 0) := by
    intro idx hidx
    have hidx2 : idx < s.length := List.mem_range.mp hidx
    set coeffs := polyCoeffs t (rnd idx) (s.getD idx 0) with hcoeffs
    have hys : parts.map (fun p => p.getD idx 0)
        = (pick.map (fun i => i + 1)).map (fun xv => evaluate coeffs xv) := by
      rw [hparts, List.map_map, List.map_map]
      exact List.map_congr_left (fun i hi => hshareat i idx hidx2)
    rw [hxsamples, hys]
    apply interpolate_at_zero_recovers
    · intro b hb
      obtain ⟨i, hi, rfl⟩ := List.mem_map.mp hb
      have := hmem i hi
      omega
    · exact hnodup.map (fun a b h => by omega)
    · intro b hb
      rw [hcoeffs] at hb
      unfold polyCoeffs at hb
      rcases List.mem_cons.mp hb with h | h
      · subst h
        exact getD_lt_256 hsB idx
      · obtain ⟨k, hk, rfl⟩ := List.mem_map.mp h
        exact hrnd idx k
    · rw [hcoeffs]
      unfold polyCoeffs
      exact List.cons_ne_nil _ _
    · rw [hcoeffs]
      unfold polyCoeffs
      simp only [List.length_cons, List.length_map, List.length_range, List.length_map]
      omega
  unfold combineShamir
  rw [if_neg hplen2, hfirst]
  rw [if_neg (Nat.succ_ne_zero s.length)]
  have hall : parts.any (fun p => p.length ≠ s.length + 1) = false := by
    rw [List.any_eq_false]
    intro p hp
    rw [hparts] at hp
    obtain ⟨i, hi, rfl⟩ := List.mem_map.mp hp
    simp [hsharelen i]
  rw [if_neg (by rw [hall]; exact Bool.false_ne_true)]
  have hstrip : s.length + 1 - 1 = s.length := rfl
  simp only [hstrip]
  rw [collectBytes_of_forall _ _ (fun idx => s.getD idx 0) hbyte, map_range_getD]

/-- Witness for C1: a concrete run with s = [42], n = 2, t = 2, constant
randomness, and the subset at positions 0 and 1. -/
theorem shamir_split_combine_roundtrip_witness :
    ∃ shares, splitShamir [42] 2 2 (fun _ _ => 7) = Except.ok shares ∧
      combineShamir ([0, 1].map (fun i => shares.getD i [])) = Except.ok [42] :=
  shamir_split_combine_roundtrip [42] 2 2 (fun _ _ => 7)
    (by decide) (by decide) (fun i k => by norm_num)
    (by norm_num) (by norm_num) (by norm_num)
    [0, 1] (by decide) (by decide) (by decide)

/-- C10: `shamir.Combine` performs no distinctness check on x-coordinates:
passing the same share twice (equal trailing x-coordinate bytes) reaches
`div` with a zero divisor in the Lagrange denominator and panics instead of
returning an error. -/
theorem shamir_combine_duplicate_share_panics :
    combineShamir [[1, 1], [1, 1]] = Except.error (CombineErr.panic "divide by zero") := by
  rfl

/-! ## Authenticated encryption (package encryptor)

`Encrypt`/`Decrypt` delegate the cipher work to the Go standard library;
the AES key-size gate and the GCM nonce handling are explicit in the code,
while `gcm.Seal`/`gcm.Open` and the random nonce are parameters. -/

/-- Modelled from the Go standard library contract of `crypto/aes.NewCipher`:
it succeeds exactly on 16-, 24- or 32-byte keys and returns `KeySizeError`
otherwise. -/
def aesKeyLenOk (key : List Nat) : Bool :=
  key.length == 16 || key.length == 24 || key.length == 32

/-- Embeds `encryptor.Encrypt`: key gate via `aes.NewCipher` (GCM creation
always succeeds on an AES block), then `gcm.Seal(nonce, nonce, plaintext,
nil)`, which appends ciphertext and tag to the nonce.  `seal` is the GCM
seal function and `nonce` the randomly drawn 12-byte nonce. -/
def encrypt (sealFn : List Nat → List Nat → List Nat → List Nat)
    (nonce : List Nat) (plaintext key : List Nat) : Except String (List Nat) :=
  if ¬ aesKeyLenOk key then .error "failed to create cipher block: invalid key size"
  else .ok (nonce ++ sealFn nonce plaintext key)

/-- Embeds `encryptor.Decrypt`: key gate, nonce split at
`gcm.NonceSize() = 12`, then `gcm.Open`; `none` from `gcmOpen` is the
authentication failure. -/
def decrypt (gcmOpen : List Nat → List Nat → List Nat → Option (List Nat))
    (blob key : List Nat) : Except String (List Nat) :=
  if ¬ aesKeyLenOk key then .error "failed to create cipher block: invalid key size"
  else if blob.length < 12 then .error "ciphertext too short"
  else match gcmOpen (blob.take 12) (blob.drop 12) key with
    | some pt => .ok pt
    | none => .error "decryption/authentication failed"

/-- Counterexample to C5 as stated: a 16-byte key is not 32 bytes long, yet
both `Encrypt` and `Decrypt` accept it (AES-128), because the only key gate
is `aes.NewCipher`. -/
theorem encrypt_decrypt_accept_aes128_key :
    (List.replicate 16 0).length ≠ 32 ∧
    encrypt (fun _ p _ => p) (List.replicate 12 0) [1, 2, 3] (List.replicate 16 0)
      = Except.ok (List.replicate 12 0 ++ [1, 2, 3]) ∧
    decrypt (fun _ c _ => some c) (List.replicate 13 9) (List.replicate 16 0)
      = Except.ok [9] := by
  refine ⟨by decide, rfl, ?_⟩
  rfl

/-- C5 amended: `encryptor.Encrypt` and `encryptor.Decrypt` return an error
for every key whose length is not 16, 24 or 32 bytes (the sizes accepted by
`aes.NewCipher`); no sealing or opening is attempted for such keys. -/
theorem encrypt_decrypt_reject_bad_key_sizes
    (sealFn : List Nat → List Nat → List Nat → List Nat)
    (gcmOpen : List Nat → List Nat → List Nat → Option (List Nat))
    (nonce plaintext blob key : List Nat)
    (h16 : key.length ≠ 16) (h24 : key.length ≠ 24) (h32 : key.length ≠ 32) :
    encrypt sealFn nonce plaintext key
        = Except.error "failed to create cipher block: invalid key size" ∧
    decrypt gcmOpen blob key
        = Except.error "failed to create cipher block: invalid key size" := by
  have hbad : aesKeyLenOk key = false := by
    unfold aesKeyLenOk
    simp [h16, h24, h32]
  constructor
  · unfold encrypt
    rw [hbad]
    rfl
  · unfold decrypt
    rw [hbad]
    rfl

/-- Witness for the amended C5 at a concrete 5-byte key. -/
theorem encrypt_decrypt_reject_bad_key_sizes_witness :
    encrypt (fun _ p _ => p) [] [] (List.replicate 5 0)
        = Except.error "failed to create cipher block: invalid key size" ∧
    decrypt (fun _ c _ => some c) [] (List.replicate 5 0)
        = Except.error "failed to create cipher block: invalid key size" :=
  encrypt_decrypt_reject_bad_key_sizes (fun _ p _ => p) (fun _ c _ => some c)
    [] [] [] (List.replicate 5 0) (by decide) (by decide) (by decide)

/-! ## Reed-Solomon sharding (package sharding)

The `Splitter` wraps `github.com/klauspost/reedsolomon`.  The library
operations `Split` (pad and partition), `Encode` (parity generation) and
`Reconstruct` are modelled: partitioning concretely from the library
documentation, parity and reconstruction as parameters constrained by the
erasure-code contract where needed. -/

/-- A single fragment of the split file: 0-based index plus bytes. -/
structure Shard where
  index : Nat
  data : List Nat
deriving DecidableEq

/-- Modelled from the klauspost/reedsolomon contract of `Encoder.Split`:
each of the `T` data shards has size `ceil(len / T)` and the last one is
zero-padded. -/
def chunksOf (data : List Nat) (T : Nat) : List (List Nat) :=
  let per := (data.length + T - 1) / T
  let padded := data ++ List.replicate (per * T - data.length) 0
  (List.range T).map (fun i => (padded.drop (i * per)).take per)

/-- Modelled from the klauspost/reedsolomon contract: `Encode` computes the
parity shards as a function of the data shards, and `Reconstruct` fills
missing shards from any `T` present ones. -/
structure RSLib where
  parity : Nat → Nat → List (List Nat) → List (List Nat)
  reconstruct : Nat → Nat → List (Option (List Nat)) → Except String (List (List Nat))

/-- Embeds `Splitter.Split` (including the `NewSplitter` threshold check and
`reedsolomon.New` argument check): partition into data chunks, append the
parity chunks, and wrap each chunk as a singleton `Shard` list. -/
def splitterSplit (lib : RSLib) (total threshold : Nat) (data : List Nat) :
    Except String (List (List Shard)) :=
  if total < threshold then .error "threshold cannot exceed total shards"
  else if threshold = 0 ∨ 256 < total then .error "invalid shard count"
  else if data.length = 0 then .error "too short data"
  else
    let chunks := chunksOf data threshold
    let shardsBytes := chunks ++ lib.parity threshold (total - threshold) chunks
    .ok (shardsBytes.enum.map (fun p => [Shard.mk p.1 p.2]))

/-- Embeds `Splitter.Join`: place the supplied shards at their indices,
count the valid ones, reconstruct, concatenate the first `threshold` data
shards (rejecting empties), and trim to `originalSize` when it is
positive. -/
def splitterJoin (lib : RSLib) (total threshold : Nat)
    (shards : Nat → Option (List Nat)) (originalSize : Nat) :
    Except String (List Nat) :=
  if total < threshold then .error "threshold cannot exceed total shards"
  else if threshold = 0 ∨ 256 < total then .error "invalid shard count"
  else if ((List.range total).map shards).countP (fun s => s.isSome) < threshold then
    .error "not enough shards to reconstruct"
  else
    match lib.reconstruct threshold (total - threshold) ((List.range total).map shards) with
    | .error e => .error ("reconstruction failed: " ++ e)
    | .ok full =>
      if (full.take threshold).any (fun c => c.length = 0) then
        .error "unexpected empty shard"
      else
        let joined := (full.take threshold).flatten
        if 0 < originalSize then
          if joined.length < originalSize then
            .error "reconstructed data shorter than expected size"
          else .ok (joined.take originalSize)
        else .ok joined

/-! ## Split/Join pipeline (package pipeline)

The length-prefix variant: compress, encrypt, prepend the 8-byte
little-endian ciphertext length, shard; and the reverse. -/

/-- Embeds `binary.LittleEndian.PutUint64` of the ciphertext length (the
unsigned right shifts of the Go code are divisions by powers of two). -/
def le64 (v : Nat) : List Nat :=
  [v % 256, v / 256 % 256, v / 65536 % 256, v / 16777216 % 256,
   v / 4294967296 % 256, v / 1099511627776 % 256,
   v / 281474976710656 % 256, v / 72057594037927936 % 256]

/-- Embeds `binary.LittleEndian.Uint64` (the bitwise ors of disjoint byte
fields of the Go code are additions). -/
def readLE64 (l : List Nat) : Nat :=
  l.getD 0 0 + l.getD 1 0 * 256 + l.getD 2 0 * 65536 + l.getD 3 0 * 16777216
    + l.getD 4 0 * 4294967296 + l.getD 5 0 * 1099511627776
    + l.getD 6 0 * 281474976710656 + l.getD 7 0 * 72057594037927936

/-- Step 4 of `SplitPipeline`: `payload = [Length (8 bytes) | CipherText]`. -/
def buildPayload (cipherText : List Nat) : List Nat :=
  le64 cipherText.length ++ cipherText

/-- Step 2 of `JoinPipeline`: strip the padding using the length prefix. -/
def stripPayload (joined : List Nat) : Except String (List Nat) :=
  if joined.length < 8 then
    .error "reconstructed data is too short to contain length prefix"
  else if joined.length - 8 < readLE64 (joined.take 8) then
    .error "reconstructed data is shorter than expected length"
  else .ok ((joined.drop 8).take (readLE64 (joined.take 8)))

/-- Embeds `SplitPipeline`: read, compress, encrypt, length-prefix, shard,
flatten (each inner list is a singleton; `flatShards[i] = s[0]`). -/
def splitPipeline (compress : List Nat → List Nat)
    (sealFn : List Nat → List Nat → List Nat → List Nat) (nonce : List Nat)
    (lib : RSLib) (input key : List Nat) (total threshold : Nat) :
    Except String (List Shard) :=
  match encrypt sealFn nonce (compress input) key with
  | .error e => .error e
  | .ok cipherText =>
    match splitterSplit lib total threshold (buildPayload cipherText) with
    | .error e => .error e
    | .ok shards => .ok (shards.map (fun s => s.headD (Shard.mk 0 [])))

/-- Embeds `JoinPipeline`: unshard (size 0, full padded data), strip the
length prefix, decrypt, decompress. -/
def joinPipeline (gcmOpen : List Nat → List Nat → List Nat → Option (List Nat))
    (decompress : List Nat → Except String (List Nat)) (lib : RSLib)
    (shards : Nat → Option (List Nat)) (key : List Nat)
    (total threshold : Nat) : Except String (List Nat) :=
  match splitterJoin lib total threshold shards 0 with
  | .error e => .error e
  | .ok joinedBytes =>
    match stripPayload joinedBytes with
    | .error e => .error e
    | .ok cipherText =>
      match decrypt gcmOpen cipherText key with
      | .error e => .error e
      | .ok decryptedBytes => decompress decryptedBytes

theorem le64_length (v : Nat) : (le64 v).length = 8 := rfl

theorem readLE64_le64 (v : Nat) (hv : v < 18446744073709551616) :
    readLE64 (le64 v) = v := by
  show v % 256 + v / 256 % 256 * 256 + v / 65536 % 256 * 65536
      + v / 16777216 % 256 * 16777216 + v / 4294967296 % 256 * 4294967296
      + v / 1099511627776 % 256 * 1099511627776
      + v / 281474976710656 % 256 * 281474976710656
      + v / 72057594037927936 % 256 * 72057594037927936 = v
  omega

/-- The length prefix survives Reed-Solomon padding: stripping recovers the
exact ciphertext whatever zero padding follows. -/
theorem stripPayload_roundtrip (C pad : List Nat)
    (hlen : C.length < 18446744073709551616) :
    stripPayload (buildPayload C ++ pad) = Except.ok C := by
  unfold stripPayload buildPayload
  rw [List.append_assoc]
  have htake : ((le64 C.length ++ (C ++ pad)).take 8) = le64 C.length := by
    have h8 : (8 : Nat) = (le64 C.length).length := rfl
    rw [h8, List.take_left]
  have hdrop : ((le64 C.length ++ (C ++ pad)).drop 8) = C ++ pad := by
    have h8 : (8 : Nat) = (le64 C.length).length := rfl
    rw [h8, List.drop_left]
  have hlen2 : (le64 C.length ++ (C ++ pad)).length = 8 + (C.length + pad.length) := by
    simp [le64_length]
  rw [htake, hdrop, readLE64_le64 _ hlen, hlen2]
  rw [if_neg (by omega), if_neg (by omega), List.take_left]

/-- When fewer than the declared number of bytes remain after the prefix,
the join pipeline rejects the payload. -/
theorem stripPayload_short_error (joined : List Nat) (h8 : 8 ≤ joined.length)
    (hshort : joined.length - 8 < readLE64 (joined.take 8)) :
    stripPayload joined
      = Except.error "reconstructed data is shorter than expected length" := by
  unfold stripPayload
  rw [if_neg (by omega), if_pos hshort]

/-- The split pipeline hands the splitter exactly the prefixed payload. -/
theorem splitPipeline_feeds_prefixed (compress : List Nat → List Nat)
    (sealFn : List Nat → List Nat → List Nat → List Nat) (nonce : List Nat)
    (lib : RSLib) (input key : List Nat) (total threshold : Nat) (C : List Nat)
    (henc : encrypt sealFn nonce (compress input) key = Except.ok C) :
    splitPipeline compress sealFn nonce lib input key total threshold
      = match splitterSplit lib total threshold (le64 C.length ++ C) with
        | .error e => .error e
        | .ok shards => .ok (shards.map (fun s => s.headD (Shard.mk 0 []))) := by
  unfold splitPipeline
  rw [henc]
  rfl


theorem getD_of_le {α : Type} {l : List α} {i : Nat} (h : l.length ≤ i) (d : α) :
    l.getD i d = d := by
  rw [List.getD_eq_getElem?_getD, List.getElem?_eq_none h]
  rfl

theorem getD_eq_getElem_gen {α : Type} {l : List α} {i : Nat} (h : i < l.length) (d : α) :
    l.getD i d = l[i] := by
  rw [List.getD_eq_getElem?_getD, List.getElem?_eq_getElem h]
  rfl

theorem chunksOf_length (data : List Nat) (T : Nat) : (chunksOf data T).length = T := by
  simp [chunksOf]

theorem padded_len_le (len T : Nat) (hT : 1 ≤ T) : len ≤ (len + T - 1) / T * T := by
  have h1 := Nat.div_add_mod (len + T - 1) T
  have h2 : (len + T - 1) % T < T := Nat.mod_lt _ (by omega)
  have h3 : T * ((len + T - 1) / T) = (len + T - 1) / T * T := Nat.mul_comm _ _
  omega

theorem per_pos (len T : Nat) (hlen : 1 ≤ len) (hT : 1 ≤ T) :
    1 ≤ (len + T - 1) / T := by
  rw [Nat.le_div_iff_mul_le (by omega)]
  omega

theorem chunksOf_getD_length (data : List Nat) (T : Nat) (hT : 1 ≤ T)
    {i : Nat} (hi : i < T) :
    ((chunksOf data T).getD i []).length = (data.length + T - 1) / T := by
  unfold chunksOf
  rw [rangeMap_getD _ hi]
  rw [List.length_take, List.length_drop, List.length_append, List.length_replicate]
  have hle := padded_len_le data.length T hT
  have hmul : (data.length + T - 1) / T * T
      ≥ i * ((data.length + T - 1) / T) + (data.length + T - 1) / T := by
    have hstep : (i + 1) * ((data.length + T - 1) / T) ≤ T * ((data.length + T - 1) / T) :=
      Nat.mul_le_mul_right _ (by omega)
    calc i * ((data.length + T - 1) / T) + (data.length + T - 1) / T
        = (i + 1) * ((data.length + T - 1) / T) := by ring
      _ ≤ T * ((data.length + T - 1) / T) := hstep
      _ = (data.length + T - 1) / T * T := Nat.mul_comm _ _
  omega

theorem flatten_chunks (per : Nat) :
    ∀ (T : Nat) (l : List Nat), l.length = per * T →
    ((List.range T).map (fun i => (l.drop (i * per)).take per)).flatten = l := by
  intro T
  induction T with
  | zero =>
    intro l hl
    rw [Nat.mul_zero] at hl
    rw [List.eq_nil_of_length_eq_zero hl]
    rfl
  | succ T ih =>
    intro l hl
    rw [List.range_succ_eq_map, List.map_cons, List.map_map, List.flatten_cons]
    have hmap : (List.range T).map ((fun i => (l.drop (i * per)).take per) ∘ Nat.succ)
        = (List.range T).map (fun i => ((l.drop per).drop (i * per)).take per) := by
      apply List.map_congr_left
      intro i hi
      show (l.drop (Nat.succ i * per)).take per = ((l.drop per).drop (i * per)).take per
      rw [List.drop_drop]
      have harg : Nat.succ i * per = per + i * per := by
        rw [Nat.succ_mul, Nat.add_comm]
      rw [harg]
    have hlen3 : (l.drop per).length = per * T := by
      rw [List.length_drop, hl]
      have hmulsucc : per * (T + 1) = per * T + per := by ring
      omega
    rw [hmap, ih (l.drop per) hlen3]
    show (l.drop (0 * per)).take per ++ l.drop per = l
    rw [Nat.zero_mul, List.drop_zero, List.take_append_drop]

theorem chunksOf_flatten (data : List Nat) (T : Nat) (hT : 1 ≤ T) :
    (chunksOf data T).flatten
      = data ++ List.replicate ((data.length + T - 1) / T * T - data.length) 0 := by
  unfold chunksOf
  apply flatten_chunks
  rw [List.length_append, List.length_replicate]
  have hle := padded_len_le data.length T hT
  omega

theorem flatShards_getD (shardsBytes : List (List Nat)) {i : Nat}
    (hi : i < shardsBytes.length) :
    (((shardsBytes.enum.map (fun p => [Shard.mk p.1 p.2])).map
        (fun s => s.headD (Shard.mk 0 []))).getD i (Shard.mk 0 []))
      = Shard.mk i (shardsBytes.getD i []) := by
  rw [List.map_map]
  have hlen : (shardsBytes.enum.map
      ((fun s => s.headD (Shard.mk 0 [])) ∘ (fun p => [Shard.mk p.1 p.2]))).length
      = shardsBytes.length := by simp
  rw [List.getD_eq_getElem?_getD, List.getElem?_eq_getElem (by rw [hlen]; exact hi)]
  show (((shardsBytes.enum.map
      ((fun s => s.headD (Shard.mk 0 [])) ∘ (fun p => [Shard.mk p.1 p.2])))[i]) : Shard)
      = Shard.mk i (shardsBytes.getD i [])
  rw [List.getElem_map, List.getElem_enum]
  show Shard.mk i (shardsBytes[i]) = Shard.mk i (shardsBytes.getD i [])
  rw [getD_eq_getElem_gen hi]

/-- C3: after encrypting to ciphertext C, the split pipeline feeds the
Reed-Solomon splitter the payload `little_endian_u64(len C) || C`; the join
pipeline reads len C from the first 8 bytes of the reconstructed payload,
fails when fewer than len C bytes remain after the prefix, and otherwise
extracts (and goes on to decrypt) exactly payload[8 .. 8 + len C]. -/
theorem pipeline_length_prefix_contract :
    (∀ (compress : List Nat → List Nat)
       (sealFn : List Nat → List Nat → List Nat → List Nat)
       (nonce : List Nat) (lib : RSLib) (input key : List Nat)
       (total threshold : Nat) (C : List Nat),
      encrypt sealFn nonce (compress input) key = Except.ok C →
      splitPipeline compress sealFn nonce lib input key total threshold
        = match splitterSplit lib total threshold (buildPayload C) with
          | .error e => .error e
          | .ok shards => .ok (shards.map (fun s => s.headD (Shard.mk 0 [])))) ∧
    (∀ C pad : List Nat, C.length < 18446744073709551616 →
      stripPayload (buildPayload C ++ pad) = Except.ok C) ∧
    (∀ joined : List Nat, 8 ≤ joined.length →
      joined.length - 8 < readLE64 (joined.take 8) →
      stripPayload joined
        = Except.error "reconstructed data is shorter than expected length") ∧
    (∀ joined : List Nat, 8 ≤ joined.length →
      readLE64 (joined.take 8) ≤ joined.length - 8 →
      stripPayload joined
        = Except.ok ((joined.drop 8).take (readLE64 (joined.take 8)))) := by
  refine ⟨?_, stripPayload_roundtrip, stripPayload_short_error, ?_⟩
  · intro compress sealFn nonce lib input key total threshold C henc
    exact splitPipeline_feeds_prefixed compress sealFn nonce lib input key
      total threshold C henc
  · intro joined h8 hle
    unfold stripPayload
    rw [if_neg (by omega), if_neg (by omega)]

/-- A Reed-Solomon library stub used only to instantiate witnesses. -/
def rsNone : RSLib where
  parity := fun _ _ _ => []
  reconstruct := fun _ _ _ => .error "unused"

/-- Witness for C3 at concrete payloads. -/
theorem pipeline_length_prefix_contract_witness :
    (splitPipeline (fun x => x) (fun _ p _ => p) (List.replicate 12 0) rsNone
        [3] (List.replicate 32 0) 2 2
      = match splitterSplit rsNone 2 2
            (buildPayload (List.replicate 12 0 ++ [3])) with
        | .error e => .error e
        | .ok shards => .ok (shards.map (fun s => s.headD (Shard.mk 0 [])))) ∧
    stripPayload (buildPayload [5, 6] ++ [0, 0, 0]) = Except.ok [5, 6] ∧
    stripPayload (le64 5 ++ [7])
      = Except.error "reconstructed data is shorter than expected length" ∧
    stripPayload (le64 1 ++ [7, 8]) = Except.ok [7] := by
  obtain ⟨h1, h2, h3, h4⟩ := pipeline_length_prefix_contract
  refine ⟨h1 (fun x => x) (fun _ p _ => p) (List.replicate 12 0) rsNone
      [3] (List.replicate 32 0) 2 2 (List.replicate 12 0 ++ [3]) rfl,
    h2 [5, 6] [0, 0, 0] (by norm_num),
    ?_, ?_⟩
  · have hs := h3 (le64 5 ++ [7]) (by decide) (by decide)
    exact hs
  · have hs := h4 (le64 1 ++ [7, 8]) (by decide) (by decide)
    rw [hs]
    rfl

/-- C4: splitting any plaintext P with a valid 32-byte key and rejoining
from any subset of at least `threshold` of the resulting shards, placed at
their 0-based indices, returns exactly P.  The gzip, AES-GCM and
Reed-Solomon library primitives are parameters constrained by their
documented contracts (`hcomp`, `hgcm`, `hparlen`, `hrec`). -/
theorem pipeline_split_join_roundtrip
    (compress : List Nat → List Nat)
    (decompress : List Nat → Except String (List Nat))
    (sealFn : List Nat → List Nat → List Nat → List Nat)
    (gcmOpen : List Nat → List Nat → List Nat → Option (List Nat))
    (nonce : List Nat) (lib : RSLib) (P key : List Nat) (total threshold : Nat)
    (hkey : key.length = 32) (hnonce : nonce.length = 12)
    (ht1 : 1 ≤ threshold) (htn : threshold ≤ total) (hn : total ≤ 256)
    (hcomp : decompress (compress P) = Except.ok P)
    (hgcm : gcmOpen nonce (sealFn nonce (compress P) key) key = some (compress P))
    (hclen : 12 + (sealFn nonce (compress P) key).length < 18446744073709551616)
    (hparlen : ∀ chunks, (lib.parity threshold (total - threshold) chunks).length
        = total - threshold)
    (hrec : ∀ (chunks : List (List Nat)) (avail : List (Option (List Nat))),
        chunks.length = threshold →
        avail.length = total →
        threshold ≤ avail.countP (fun s => s.isSome) →
        (∀ i c, avail.getD i none = some c
          → c = (chunks ++ lib.parity threshold (total - threshold) chunks).getD i []) →
        lib.reconstruct threshold (total - threshold) avail
          = Except.ok (chunks ++ lib.parity threshold (total - threshold) chunks))
    (shards : Nat → Option (List Nat)) (flatShards : List Shard)
    (hsplit : splitPipeline compress sealFn nonce lib P key total threshold
        = Except.ok flatShards)
    (hsub : ∀ i c, shards i = some c
        → i < total ∧ c = (flatShards.getD i (Shard.mk 0 [])).data)
    (hcount : threshold ≤ ((List.range total).map shards).countP (fun s => s.isSome)) :
    joinPipeline gcmOpen decompress lib shards key total threshold = Except.ok P := by
  have hkeyok : aesKeyLenOk key = true := by
    unfold aesKeyLenOk
    simp [hkey]
  have henc : encrypt sealFn nonce (compress P) key
      = Except.ok (nonce ++ sealFn nonce (compress P) key) := by
    unfold encrypt
    simp [hkeyok]
  set Cc := nonce ++ sealFn nonce (compress P) key with hC
  have hCclen : Cc.length = 12 + (sealFn nonce (compress P) key).length := by
    rw [hC, List.length_append, hnonce]
  set payload := buildPayload Cc with hpayload
  have hplen : payload.length = 8 + Cc.length := by
    rw [hpayload]
    unfold buildPayload
    rw [List.length_append, le64_length]
  set chunks := chunksOf payload threshold with hchunks
  set par := lib.parity threshold (total - threshold) chunks with hpardef
  have hchlen : chunks.length = threshold := by
    rw [hchunks]
    exact chunksOf_length payload threshold
  have hparlen2 : par.length = total - threshold := by
    rw [hpardef]
    exact hparlen chunks
  have hsblen : (chunks ++ par).length = total := by
    rw [List.length_append, hchlen, hparlen2]
    omega
  have hssplit : splitterSplit lib total threshold payload
      = Except.ok ((chunks ++ par).enum.map (fun p => [Shard.mk p.1 p.2])) := by
    unfold splitterSplit
    rw [if_neg (by omega), if_neg (by omega), if_neg (by omega)]
  have hflat : flatShards
      = ((chunks ++ par).enum.map (fun p => [Shard.mk p.1 p.2])).map
          (fun s => s.headD (Shard.mk 0 [])) := by
    have h2 := (splitPipeline_feeds_prefixed compress sealFn nonce lib P key
      total threshold Cc henc).symm.trans hsplit
    rw [show le64 Cc.length ++ Cc = buildPayload Cc from rfl, ← hpayload, hssplit] at h2
    dsimp only at h2
    simp only [Except.ok.injEq] at h2
    exact h2.symm
  have hagree : ∀ i c, ((List.range total).map shards).getD i none = some c
      → c = (chunks ++ par).getD i [] := by
    intro i c h
    by_cases hi : i < total
    · rw [rangeMap_getD shards hi none] at h
      obtain ⟨hi2, hc⟩ := hsub i c h
      rw [hc, hflat, flatShards_getD (chunks ++ par) (by omega)]
    · rw [getD_of_le (by simp; omega) none] at h
      exact absurd h (by simp)
  have hreceq := hrec chunks ((List.range total).map shards) hchlen
    (by simp) hcount hagree
  have hper1 : 1 ≤ (payload.length + threshold - 1) / threshold :=
    per_pos payload.length threshold (by omega) ht1
  have hempty : ((chunks ++ par).take threshold).any (fun c => c.length = 0) = false := by
    have htake : (chunks ++ par).take threshold = chunks := by
      rw [← hchlen, List.take_left]
    rw [htake, List.any_eq_false]
    intro c hc
    obtain ⟨k, hk, hck⟩ := List.mem_iff_getElem.mp hc
    have hk2 : k < threshold := by rw [hchlen] at hk; exact hk
    have hlen := chunksOf_getD_length payload threshold ht1 hk2
    rw [← hchunks] at hlen
    rw [getD_eq_getElem_gen hk] at hlen
    rw [hck] at hlen
    simp only [decide_eq_true_eq]
    omega
  have hjoined : (((chunks ++ par).take threshold).flatten)
      = buildPayload Cc
        ++ List.replicate
            ((payload.length + threshold - 1) / threshold * threshold - payload.length)
            0 := by
    have htake : (chunks ++ par).take threshold = chunks := by
      rw [← hchlen, List.take_left]
    rw [htake, hchunks, chunksOf_flatten payload threshold ht1, ← hpayload]
  have hjoin : splitterJoin lib total threshold shards 0
      = Except.ok (((chunks ++ par).take threshold).flatten) := by
    unfold splitterJoin
    rw [← hpardef] at hreceq
    rw [if_neg (by omega), if_neg (by omega), if_neg (by omega), hreceq]
    dsimp only
    rw [hempty]
    try dsimp only
    try rfl
  have hstrip : stripPayload (((chunks ++ par).take threshold).flatten)
      = Except.ok Cc := by
    rw [hjoined]
    exact stripPayload_roundtrip Cc _ (by omega)
  have hdec : decrypt gcmOpen Cc key = Except.ok (compress P) := by
    unfold decrypt
    rw [hkeyok]
    rw [if_neg (by simp), if_neg (by omega)]
    have htake12 : Cc.take 12 = nonce := by
      rw [hC, ← hnonce, List.take_left]
    have hdrop12 : Cc.drop 12 = sealFn nonce (compress P) key := by
      rw [hC, ← hnonce, List.drop_left]
    rw [htake12, hdrop12, hgcm]
  unfold joinPipeline
  rw [hjoin]
  dsimp only
  rw [hstrip]
  dsimp only
  rw [hdec]
  dsimp only
  exact hcomp

/-- An identity-style Reed-Solomon library model for single-data-shard
witness instantiations: no parity, reconstruction returns the present
shards. -/
def rsId : RSLib where
  parity := fun _ _ _ => []
  reconstruct := fun _ _ avail => .ok (avail.map (fun o => o.getD []))

/-- Witness for C4: a concrete end-to-end run with total = threshold = 1 and
plaintext [7]. -/
theorem pipeline_split_join_roundtrip_witness :
    joinPipeline (fun _ c _ => some c) (fun x => Except.ok x) rsId
      (fun i => if i = 0 then some (buildPayload (List.replicate 12 0 ++ [7])) else none)
      (List.replicate 32 1) 1 1 = Except.ok [7] := by
  refine pipeline_split_join_roundtrip (fun x => x) (fun x => Except.ok x)
    (fun _ p _ => p) (fun _ c _ => some c) (List.replicate 12 0) rsId [7]
    (List.replicate 32 1) 1 1 (by simp) (by simp) (by norm_num) (by norm_num)
    (by norm_num) rfl rfl (by norm_num) (fun chunks => rfl) ?_
    (fun i => if i = 0 then some (buildPayload (List.replicate 12 0 ++ [7])) else none)
    [Shard.mk 0 (buildPayload (List.replicate 12 0 ++ [7]))] (by rfl) ?_ (by decide)
  · intro chunks avail hch hav hcnt hagree
    obtain ⟨c, rfl⟩ := List.length_eq_one.mp hch
    obtain ⟨o, rfl⟩ := List.length_eq_one.mp hav
    cases o with
    | none => exact absurd hcnt (by decide)
    | some v =>
      have hv := hagree 0 v (by rfl)
      show Except.ok [v] = Except.ok ([c] ++ [])
      rw [hv]
      rfl
  · intro i c h
    dsimp only at h
    by_cases hi : i = 0
    · subst hi
      rw [if_pos rfl] at h
      refine ⟨by norm_num, ?_⟩
      rw [← Option.some.inj h]
      rfl
    · rw [if_neg hi] at h
      exact absurd h (by simp)

/-! ## Bind orchestrator (cmd bind, phase 6)

The group-processing loop of the bind command: threshold check, key
reconstruction via `shamir.Combine`, shard-map construction with the
1-based to 0-based index conversion, and `pipeline.JoinPipeline`.  A Go
map with `int` keys is modelled as an association list where the last
binding wins (later assignments overwrite earlier ones). -/

/-- Embeds `format.Header` (the JSON metadata of a horcrux file). -/
structure Header where
  originalFilename : String
  timestamp : Int
  index : Int
  total : Nat
  threshold : Nat
  keyFragment : List Nat
deriving DecidableEq

/-- Lookup in a Go-map model: the last binding for a key wins. -/
def mapLookup (m : List (Int × List Nat)) (k : Int) : Option (List Nat) :=
  match m with
  | [] => none
  | (k2, v) :: rest =>
    match mapLookup rest k with
    | some r => some r
    | none => if k2 = k then some v else none

/-- Embeds the shard-map construction of the bind command: for each loaded
horcrux the body bytes are stored at key `Header.Index - 1` (the 1-based
header index converted to the 0-based Reed-Solomon index). -/
def buildShardMap (group : List (Header × List Nat)) : List (Int × List Nat) :=
  group.map (fun g => (g.1.index - 1, g.2))

/-- Embeds one iteration of the group loop of the bind command: skip the
group when fewer than `Threshold` horcruxes were found, reconstruct the key
with `shamir.Combine`, build the shard map, run `pipeline.JoinPipeline`,
and output the plaintext under the original filename; `none` models a
`continue` (no output file written for the group). -/
def bindGroup (gcmOpen : List Nat → List Nat → List Nat → Option (List Nat))
    (decompress : List Nat → Except String (List Nat)) (lib : RSLib)
    (group : List (Header × List Nat)) : Option (String × List Nat) :=
  match group with
  | [] => none
  | ref :: _ =>
    if group.length < ref.1.threshold then none
    else match combineShamir (group.map (fun g => g.1.keyFragment)) with
      | .error _ => none
      | .ok key =>
        match joinPipeline gcmOpen decompress lib
            (fun i => mapLookup (buildShardMap group) (Int.ofNat i)) key
            ref.1.total ref.1.threshold with
        | .error _ => none
        | .ok plainText => some (ref.1.originalFilename, plainText)

theorem buildShardMap_cons (g : Header × List Nat) (rest : List (Header × List Nat)) :
    buildShardMap (g :: rest) = (g.1.index - 1, g.2) :: buildShardMap rest := rfl

theorem mapLookup_cons (k2 : Int) (v : List Nat) (rest : List (Int × List Nat)) (k : Int) :
    mapLookup ((k2, v) :: rest) k =
      match mapLookup rest k with
      | some r => some r
      | none => if k2 = k then some v else none := rfl

theorem mapLookup_not_mem (m : List (Int × List Nat)) (k : Int)
    (h : ∀ p ∈ m, p.1 ≠ k) : mapLookup m k = none := by
  induction m with
  | nil => rfl
  | cons p rest ih =>
    obtain ⟨k2, v⟩ := p
    show (match mapLookup rest k with
      | some r => some r
      | none => if k2 = k then some v else none) = none
    rw [ih (fun q hq => h q (List.mem_cons_of_mem _ hq))]
    rw [if_neg (h (k2, v) (List.mem_cons_self _ _))]

/-- C2: during bind, every parsed horcrux whose header carries a 1-based
index `i` has its body bytes placed at key `i - 1` of the shard map handed
to the Reed-Solomon join (provided the header indices of the group are
pairwise distinct, since a Go map keeps only the last binding per key). -/
theorem bind_shard_map_index_conversion
    (group : List (Header × List Nat))
    (hnodup : (group.map (fun g => g.1.index)).Nodup)
    (h : Header) (b : List Nat) (hmem : (h, b) ∈ group) :
    mapLookup (buildShardMap group) (h.index - 1) = some b := by
  induction group with
  | nil => cases hmem
  | cons g rest ih =>
    rw [List.map_cons, List.nodup_cons] at hnodup
    obtain ⟨g1, g2⟩ := g
    rcases List.mem_cons.mp hmem with heq | hrest
    · rw [Prod.mk.injEq] at heq
      obtain ⟨h1, h2⟩ := heq
      subst h1
      subst h2
      have hnone : mapLookup (buildShardMap rest) (h.index - 1) = none := by
        refine mapLookup_not_mem _ _ ?_
        intro p hp
        obtain ⟨q, hq, hqp⟩ := List.mem_map.mp hp
        intro hbad
        apply hnodup.1
        refine List.mem_map.mpr ⟨q, hq, ?_⟩
        have h3 : q.1.index - 1 = p.1 := congrArg Prod.fst hqp
        show q.1.index = h.index
        omega
      rw [buildShardMap_cons, mapLookup_cons, hnone]
      dsimp only
      rw [if_pos rfl]
    · rw [buildShardMap_cons, mapLookup_cons, ih hnodup.2 hrest]

/-- Witness for C2: a two-horcrux group with indices 1 and 2; the body of
the index-1 horcrux lands at Reed-Solomon key 0. -/
theorem bind_shard_map_index_conversion_witness :
    mapLookup (buildShardMap
        [(Header.mk "f" 0 1 2 2 [1, 2], [10]), (Header.mk "f" 0 2 2 2 [3, 4], [20])])
      (0 : Int) = some [10] :=
  bind_shard_map_index_conversion
    [(Header.mk "f" 0 1 2 2 [1, 2], [10]), (Header.mk "f" 0 2 2 2 [3, 4], [20])]
    (by decide) (Header.mk "f" 0 1 2 2 [1, 2]) [10] (List.mem_cons_self _ _)

theorem decrypt_ok_gcm (gcmOpen : List Nat → List Nat → List Nat → Option (List Nat))
    (blob key pt : List Nat) (h : decrypt gcmOpen blob key = Except.ok pt) :
    12 ≤ blob.length ∧ gcmOpen (blob.take 12) (blob.drop 12) key = some pt := by
  unfold decrypt at h
  split at h
  · exact absurd h (by simp)
  · split at h
    · rename_i hlt
      exact absurd h (by simp)
    · rename_i hlt
      cases hg : gcmOpen (blob.take 12) (blob.drop 12) key with
      | none => rw [hg] at h; exact absurd h (by simp)
      | some pt2 =>
        rw [hg] at h
        dsimp only at h
        refine ⟨by omega, ?_⟩
        exact congrArg some (Except.ok.inj h)

/-- C6: the join pipeline returns plaintext only after `gcm.Open` has
succeeded on the assembled ciphertext (the decompressed plaintext derives
from its output), and the bind orchestrator emits an output file for a
group only when that join pipeline call returned without error. -/
theorem bind_authentication_gate :
    (∀ (gcmOpen : List Nat → List Nat → List Nat → Option (List Nat))
       (decompress : List Nat → Except String (List Nat)) (lib : RSLib)
       (shards : Nat → Option (List Nat)) (key : List Nat) (total threshold : Nat)
       (plain : List Nat),
       joinPipeline gcmOpen decompress lib shards key total threshold
           = Except.ok plain →
       ∃ (C pt : List Nat), 12 ≤ C.length ∧
         gcmOpen (C.take 12) (C.drop 12) key = some pt ∧
         decompress pt = Except.ok plain) ∧
    (∀ (gcmOpen : List Nat → List Nat → List Nat → Option (List Nat))
       (decompress : List Nat → Except String (List Nat)) (lib : RSLib)
       (group : List (Header × List Nat)) (out : String × List Nat),
       bindGroup gcmOpen decompress lib group = some out →
       ∃ ref rest key, group = ref :: rest ∧
         joinPipeline gcmOpen decompress lib
             (fun i => mapLookup (buildShardMap group) (Int.ofNat i)) key
             ref.1.total ref.1.threshold = Except.ok out.2) := by
  constructor
  · intro gcmOpen decompress lib shards key total threshold plain hjoin
    unfold joinPipeline at hjoin
    cases hsj : splitterJoin lib total threshold shards 0 with
    | error e => rw [hsj] at hjoin; exact absurd hjoin (by simp)
    | ok joined =>
      rw [hsj] at hjoin
      dsimp only at hjoin
      cases hsp : stripPayload joined with
      | error e => rw [hsp] at hjoin; exact absurd hjoin (by simp)
      | ok C =>
        rw [hsp] at hjoin
        dsimp only at hjoin
        cases hd : decrypt gcmOpen C key with
        | error e => rw [hd] at hjoin; exact absurd hjoin (by simp)
        | ok pt =>
          rw [hd] at hjoin
          dsimp only at hjoin
          obtain ⟨hlen, hg⟩ := decrypt_ok_gcm gcmOpen C key pt hd
          exact ⟨C, pt, hlen, hg, hjoin⟩
  · intro gcmOpen decompress lib group out hbind
    unfold bindGroup at hbind
    cases group with
    | nil => exact absurd hbind (by simp)
    | cons ref rest =>
      dsimp only at hbind
      split at hbind
      · exact absurd hbind (by simp)
      · cases hc : combineShamir ((ref :: rest).map (fun g => g.1.keyFragment)) with
        | error e => rw [hc] at hbind; exact absurd hbind (by simp)
        | ok key =>
          rw [hc] at hbind
          dsimp only at hbind
          cases hj : joinPipeline gcmOpen decompress lib
              (fun i => mapLookup (buildShardMap (ref :: rest)) (Int.ofNat i)) key
              ref.1.total ref.1.threshold with
          | error e => rw [hj] at hbind; exact absurd hbind (by simp)
          | ok plainText =>
            rw [hj] at hbind
            dsimp only at hbind
            refine ⟨ref, rest, key, rfl, ?_⟩
            rw [hj, ← Option.some.inj hbind]

/-! ## Container format (package format)

Byte-stream embedding of `Writer.Write` and `NewReader`: the six-line
banner (`MagicHeader` with the three `%d` fields rendered in decimal), the
`-- HEADER --` and `-- BODY --` marker lines, the JSON header line
(`json.Marshal`/`json.Unmarshal` are parameters), and the raw body.
`bufio.ReadString` is modelled by splitting at the first newline byte, and
`strings.TrimSpace` by dropping ASCII whitespace from both ends. -/

/-- Bytes `strings.TrimSpace` drops at the ends of the ASCII lines the
format uses: space, tab, newline, vertical tab, form feed, carriage
return. -/
def isSpaceByte (b : Nat) : Bool :=
  b == 32 || b == 9 || b == 10 || b == 11 || b == 12 || b == 13

/-- Embeds `strings.TrimSpace` on byte lists (its ASCII fragment). -/
def trimSpace (l : List Nat) : List Nat :=
  ((l.dropWhile isSpaceByte).reverse.dropWhile isSpaceByte).reverse

/-- Embeds `bufio.Reader.ReadString(0x0A)` as `NewReader` uses it: the
line up to and including the first newline plus the rest of the stream,
and `none` when the stream ends first (Go returns a non-nil error then,
which `NewReader` turns into a failure). -/
def splitAtNewline (s : List Nat) : Option (List Nat × List Nat) :=
  match s with
  | [] => none
  | b :: rest =>
    if b = 10 then some ([10], rest)
    else match splitAtNewline rest with
      | none => none
      | some p => some (b :: p.1, p.2)

/-- ASCII bytes of `HeaderMarker` (the string "-- HEADER --"). -/
def headerMarker : List Nat := [45, 45, 32, 72, 69, 65, 68, 69, 82, 32, 45, 45]

/-- ASCII bytes of `BodyMarker` (the string "-- BODY --"). -/
def bodyMarker : List Nat := [45, 45, 32, 66, 79, 68, 89, 32, 45, 45]

/-- Decimal ASCII rendering of a natural number, as the verb of
`fmt.Sprintf` renders a nonnegative int. -/
def natDecimal (n : Nat) : List Nat :=
  if h : n < 10 then [48 + n]
  else natDecimal (n / 10) ++ [48 + n % 10]
termination_by n
decreasing_by
  simp_wf
  omega

/-- Decimal ASCII rendering of an int, as the verb of `fmt.Sprintf`
renders it (a leading minus sign for negatives). -/
def intDecimal (i : Int) : List Nat :=
  if i < 0 then 45 :: natDecimal (-i).toNat else natDecimal i.toNat

/-- ASCII bytes of banner line 1 of `MagicHeader`
("# THIS FILE IS A HORCRUX."). -/
def bannerL1 : List Nat := [35, 32, 84, 72, 73, 83, 32, 70, 73, 76, 69, 32, 73, 83, 32, 65, 32, 72, 79, 82, 67, 82, 85, 88, 46]

/-- ASCII bytes of banner line 2 of `MagicHeader` before its `%d`
("# IT IS ONE OF "). -/
def bannerL2a : List Nat := [35, 32, 73, 84, 32, 73, 83, 32, 79, 78, 69, 32, 79, 70, 32]

/-- ASCII bytes of banner line 2 of `MagicHeader` after its `%d`. -/
def bannerL2b : List Nat := [32, 72, 79, 82, 67, 82, 85, 88, 69, 83, 32, 84, 72, 65, 84, 32, 69, 65, 67, 72, 32, 67, 79, 78, 84, 65, 73, 78, 32, 80, 65, 82, 84, 32, 79, 70, 32, 65, 78, 32, 79, 82, 73, 71, 73, 78, 65, 76, 32, 70, 73, 76, 69, 46]

/-- ASCII bytes of banner line 3 of `MagicHeader` before its `%d`
("# THIS IS HORCRUX NUMBER "). -/
def bannerL3a : List Nat := [35, 32, 84, 72, 73, 83, 32, 73, 83, 32, 72, 79, 82, 67, 82, 85, 88, 32, 78, 85, 77, 66, 69, 82, 32]

/-- ASCII bytes of banner line 3 of `MagicHeader` after its `%d` (a full
stop). -/
def bannerL3b : List Nat := [46]

/-- ASCII bytes of banner line 4 of `MagicHeader` before its `%d`. -/
def bannerL4a : List Nat := [35, 32, 73, 78, 32, 79, 82, 68, 69, 82, 32, 84, 79, 32, 82, 69, 83, 85, 82, 82, 69, 67, 84, 32, 84, 72, 73, 83, 32, 79, 82, 73, 71, 73, 78, 65, 76, 32, 70, 73, 76, 69, 32, 89, 79, 85, 32, 77, 85, 83, 84, 32, 70, 73, 78, 68, 32, 84, 72, 69, 32, 79, 84, 72, 69, 82, 32]

/-- ASCII bytes of banner line 4 of `MagicHeader` after its `%d`
(" HORCRUX(ES)"). -/
def bannerL4b : List Nat := [32, 72, 79, 82, 67, 82, 85, 88, 40, 69, 83, 41]

/-- ASCII bytes of banner line 5 of `MagicHeader`. -/
def bannerL5 : List Nat := [35, 32, 65, 78, 68, 32, 66, 73, 78, 68, 32, 84, 72, 69, 77, 32, 85, 83, 73, 78, 71, 32, 84, 72, 69, 32, 80, 82, 79, 71, 82, 65, 77, 32, 70, 79, 85, 78, 68, 32, 65, 84, 58]

/-- ASCII bytes of banner line 6 of `MagicHeader`
("# https://github.com/Beastly713/horcrux"). -/
def bannerL6 : List Nat := [35, 32, 104, 116, 116, 112, 115, 58, 47, 47, 103, 105, 116, 104, 117, 98, 46, 99, 111, 109, 47, 66, 101, 97, 115, 116, 108, 121, 55, 49, 51, 47, 104, 111, 114, 99, 114, 117, 120]

/-- Embeds `fmt.Sprintf(MagicHeader, total, index, others)`: the six
banner lines, each newline-terminated, with the three `%d` fields
substituted. -/
def magicText (total : Nat) (index : Int) (others : Nat) : List Nat :=
  bannerL1 ++ [10] ++ bannerL2a ++ natDecimal total ++ bannerL2b ++ [10]
    ++ bannerL3a ++ intDecimal index ++ bannerL3b ++ [10]
    ++ bannerL4a ++ natDecimal others ++ bannerL4b ++ [10]
    ++ bannerL5 ++ [10] ++ bannerL6 ++ [10]

/-- Embeds `Header.Validate`; the numeric details of the Go error
messages are elided. -/
def headerValidate (h : Header) : Option String :=
  if h.index < 1 ∨ (h.total : Int) < h.index then some "invalid index"
  else if h.threshold < 2 ∨ h.total < h.threshold then some "invalid threshold"
  else if h.keyFragment = [] then some "header is missing key fragment"
  else if h.originalFilename = "" then some "header is missing original filename"
  else none

/-- Embeds `Writer.Write`: in headerless (paranoiac) mode only the raw
content is emitted; otherwise the header is validated and the banner, the
header marker line, the marshalled JSON (with Go writing one newline
after it), the body marker line, and the content are concatenated.
`json.Marshal` is the parameter `jsonMarshal` (it never fails on
`Header`). -/
def writerWrite (jsonMarshal : Header → List Nat) (h : Header)
    (content : List Nat) (headerless : Bool) : Except String (List Nat) :=
  if headerless then .ok content
  else match headerValidate h with
    | some e => .error ("invalid header: " ++ e)
    | none => .ok (magicText h.total h.index (h.threshold - 1)
        ++ headerMarker ++ [10] ++ jsonMarshal h ++ [10]
        ++ bodyMarker ++ [10] ++ content)

/-- Embeds the marker scan of `NewReader`: up to 50 lines are read; a
line whose trimmed text equals `HeaderMarker` ends the scan with the rest
of the stream; running out of lines, or a read failure, is `none` (an
error in Go). -/
def scanForMarker : Nat → List Nat → Option (List Nat)
  | 0, _ => none
  | fuel + 1, s =>
    match splitAtNewline s with
    | none => none
    | some p =>
      if trimSpace p.1 = headerMarker then some p.2
      else scanForMarker fuel p.2

/-- Embeds the JSON-collecting loop of `NewReader`: lines are read and
accumulated (newlines included) until one trims to `BodyMarker`; the
result is the accumulated JSON text and the remaining stream.  The Go
loop is unbounded; it is modelled with fuel, which the caller sets to
`length + 1`, more than the strictly shrinking stream can consume. -/
def readUntilBody : Nat → List Nat → Option (List Nat × List Nat)
  | 0, _ => none
  | fuel + 1, s =>
    match splitAtNewline s with
    | none => none
    | some p =>
      if trimSpace p.1 = bodyMarker then some ([], p.2)
      else match readUntilBody fuel p.2 with
        | none => none
        | some q => some (p.1 ++ q.1, q.2)

/-- Embeds `NewReader`: scan for the header marker, collect the JSON
until the body marker, unmarshal, validate, and return the header with
the rest of the stream as the body.  `json.Unmarshal` is the parameter
`jsonUnmarshal` (`none` is a parse failure). -/
def newReader (jsonUnmarshal : List Nat → Option Header) (s : List Nat) :
    Except String (Header × List Nat) :=
  match scanForMarker 50 s with
  | none => .error "invalid format: could not find header marker"
  | some rest1 =>
    match readUntilBody (rest1.length + 1) rest1 with
    | none => .error "invalid format: could not find body marker"
    | some p =>
      match jsonUnmarshal p.1 with
      | none => .error "failed to parse header json"
      | some h =>
        match headerValidate h with
        | some e => .error ("header validation failed: " ++ e)
        | none => .ok (h, p.2)

theorem natDecimal_mem : ∀ (n : Nat), ∀ b ∈ natDecimal n, 48 ≤ b ∧ b ≤ 57 := by
  intro n
  induction n using Nat.strong_induction_on with
  | _ n ih =>
    intro b hb
    unfold natDecimal at hb
    split at hb
    · rename_i h
      simp at hb
      omega
    · rename_i h
      rcases List.mem_append.mp hb with h1 | h2
      · exact ih (n / 10) (Nat.div_lt_self (by omega) (by omega)) b h1
      · simp at h2
        have := Nat.mod_lt n (show 0 < 10 by omega)
        omega

theorem natDecimal_not_ten (n : Nat) : (10 : Nat) ∉ natDecimal n := by
  intro hm
  have := natDecimal_mem n 10 hm
  omega

theorem intDecimal_not_ten (i : Int) : (10 : Nat) ∉ intDecimal i := by
  unfold intDecimal
  split
  · intro hm
    rcases List.mem_cons.mp hm with h45 | hd
    · omega
    · exact natDecimal_not_ten _ hd
  · exact natDecimal_not_ten _

theorem splitAtNewline_append (l r : List Nat) (h10 : (10 : Nat) ∉ l) :
    splitAtNewline (l ++ 10 :: r) = some (l ++ [10], r) := by
  induction l with
  | nil => rfl
  | cons b t ih =>
    have hb : b ≠ 10 := fun he => h10 (he ▸ List.mem_cons_self _ _)
    show (if b = 10 then some ([10], t ++ 10 :: r)
      else match splitAtNewline (t ++ 10 :: r) with
        | none => none
        | some p => some (b :: p.1, p.2)) = some ((b :: t) ++ [10], r)
    rw [if_neg hb, ih (fun hm => h10 (List.mem_cons_of_mem _ hm))]
    rfl

theorem splitAtNewline_none (s : List Nat) (h10 : (10 : Nat) ∉ s) :
    splitAtNewline s = none := by
  induction s with
  | nil => rfl
  | cons b t ih =>
    have hb : b ≠ 10 := fun he => h10 (he ▸ List.mem_cons_self _ _)
    show (if b = 10 then some ([10], t)
      else match splitAtNewline t with
        | none => none
        | some p => some (b :: p.1, p.2)) = none
    rw [if_neg hb, ih (fun hm => h10 (List.mem_cons_of_mem _ hm))]

theorem dropWhile_append_singleton (p : Nat → Bool) (xs : List Nat) (b : Nat)
    (hb : p b = false) : ∃ ys, (xs ++ [b]).dropWhile p = ys ++ [b] := by
  induction xs with
  | nil =>
    refine ⟨[], ?_⟩
    show List.dropWhile p [b] = [b]
    rw [List.dropWhile_cons, if_neg (by simp [hb])]
  | cons x t ih =>
    by_cases hx : p x = true
    · obtain ⟨ys, hys⟩ := ih
      refine ⟨ys, ?_⟩
      show List.dropWhile p (x :: (t ++ [b])) = ys ++ [b]
      rw [List.dropWhile_cons, if_pos hx, hys]
    · refine ⟨x :: t, ?_⟩
      show List.dropWhile p (x :: (t ++ [b])) = (x :: t) ++ [b]
      rw [List.dropWhile_cons, if_neg hx]
      rfl

theorem trimSpace_head (l : List Nat) (b : Nat) (hhead : l.head? = some b)
    (hns : isSpaceByte b = false) : (trimSpace l).head? = some b := by
  cases l with
  | nil => cases hhead
  | cons x t =>
    have hx : x = b := Option.some.inj hhead
    subst hx
    unfold trimSpace
    rw [List.dropWhile_cons, if_neg (by simp [hns])]
    rw [List.reverse_cons]
    obtain ⟨ys, hys⟩ := dropWhile_append_singleton isSpaceByte t.reverse x hns
    rw [hys, List.reverse_append]
    rfl

theorem trimSpace_ne (l : List Nat) (b : Nat) (hhead : l.head? = some b)
    (hns : isSpaceByte b = false) (m : List Nat) (hm : m.head? ≠ some b) :
    trimSpace l ≠ m :=
  fun he => hm (he ▸ trimSpace_head l b hhead hns)

theorem scanForMarker_skip (fuel : Nat) (hf : fuel ≠ 0) (line rest : List Nat)
    (h10 : (10 : Nat) ∉ line) (hne : trimSpace (line ++ [10]) ≠ headerMarker) :
    scanForMarker fuel (line ++ 10 :: rest) = scanForMarker (fuel - 1) rest := by
  cases fuel with
  | zero => exact absurd rfl hf
  | succ f =>
    have h1 : scanForMarker (f + 1) (line ++ 10 :: rest)
        = match splitAtNewline (line ++ 10 :: rest) with
          | none => none
          | some p =>
            if trimSpace p.1 = headerMarker then some p.2
            else scanForMarker f p.2 := rfl
    rw [h1, splitAtNewline_append line rest h10]
    dsimp only
    rw [if_neg hne]
    rfl

theorem scanForMarker_skip3 (fuel : Nat) (hf : fuel ≠ 0) (a mid c rest : List Nat)
    (ha : (10 : Nat) ∉ a) (hm2 : (10 : Nat) ∉ mid) (hc : (10 : Nat) ∉ c)
    (hne : trimSpace ((a ++ (mid ++ c)) ++ [10]) ≠ headerMarker) :
    scanForMarker fuel (a ++ (mid ++ (c ++ 10 :: rest)))
      = scanForMarker (fuel - 1) rest := by
  have he : a ++ (mid ++ (c ++ 10 :: rest)) = (a ++ (mid ++ c)) ++ 10 :: rest := by
    simp [List.append_assoc]
  rw [he]
  refine scanForMarker_skip fuel hf _ rest ?_ hne
  intro hmem
  rcases List.mem_append.mp hmem with h1 | h2
  · exact ha h1
  · rcases List.mem_append.mp h2 with h3 | h4
    · exact hm2 h3
    · exact hc h4

theorem scanForMarker_hit (fuel : Nat) (hf : fuel ≠ 0) (rest : List Nat) :
    scanForMarker fuel (headerMarker ++ 10 :: rest) = some rest := by
  cases fuel with
  | zero => exact absurd rfl hf
  | succ f =>
    have h1 : scanForMarker (f + 1) (headerMarker ++ 10 :: rest)
        = match splitAtNewline (headerMarker ++ 10 :: rest) with
          | none => none
          | some p =>
            if trimSpace p.1 = headerMarker then some p.2
            else scanForMarker f p.2 := rfl
    rw [h1, splitAtNewline_append _ _ (by decide)]
    dsimp only
    rw [if_pos (by decide)]

theorem readUntilBody_skip (fuel : Nat) (hf : fuel ≠ 0) (line rest : List Nat)
    (h10 : (10 : Nat) ∉ line) (hne : trimSpace (line ++ [10]) ≠ bodyMarker) :
    readUntilBody fuel (line ++ 10 :: rest)
      = match readUntilBody (fuel - 1) rest with
        | none => none
        | some q => some (line ++ [10] ++ q.1, q.2) := by
  cases fuel with
  | zero => exact absurd rfl hf
  | succ f =>
    have h1 : readUntilBody (f + 1) (line ++ 10 :: rest)
        = match splitAtNewline (line ++ 10 :: rest) with
          | none => none
          | some p =>
            if trimSpace p.1 = bodyMarker then some ([], p.2)
            else match readUntilBody f p.2 with
              | none => none
              | some q => some (p.1 ++ q.1, q.2) := rfl
    rw [h1, splitAtNewline_append line rest h10]
    dsimp only
    rw [if_neg hne]
    rfl

theorem readUntilBody_hit (fuel : Nat) (hf : fuel ≠ 0) (rest : List Nat) :
    readUntilBody fuel (bodyMarker ++ 10 :: rest) = some ([], rest) := by
  cases fuel with
  | zero => exact absurd rfl hf
  | succ f =>
    have h1 : readUntilBody (f + 1) (bodyMarker ++ 10 :: rest)
        = match splitAtNewline (bodyMarker ++ 10 :: rest) with
          | none => none
          | some p =>
            if trimSpace p.1 = bodyMarker then some ([], p.2)
            else match readUntilBody f p.2 with
              | none => none
              | some q => some (p.1 ++ q.1, q.2) := rfl
    rw [h1, splitAtNewline_append _ _ (by decide)]
    dsimp only
    rw [if_pos (by decide)]

/-- C7: writing a validated header and a body in standard mode and
parsing the result yields the header and exactly the body.  The
`json.Marshal`/`json.Unmarshal` pair is constrained by its documented
behaviour on `Header`: compact output with no newline, starting with the
byte of an opening brace, and un-marshalling its own output (with the
trailing newline the writer adds) back to the same header. -/
theorem container_write_read_roundtrip
    (jsonMarshal : Header → List Nat) (jsonUnmarshal : List Nat → Option Header)
    (h : Header) (b out : List Nat)
    (hvalid : headerValidate h = none)
    (hnl : (10 : Nat) ∉ jsonMarshal h)
    (hhead : (jsonMarshal h).head? = some 123)
    (hround : jsonUnmarshal (jsonMarshal h ++ [10]) = some h)
    (hw : writerWrite jsonMarshal h b false = Except.ok out) :
    newReader jsonUnmarshal out = Except.ok (h, b) := by
  unfold writerWrite at hw
  rw [if_neg Bool.false_ne_true, hvalid] at hw
  dsimp only at hw
  rw [← Except.ok.inj hw]
  have harg : magicText h.total h.index (h.threshold - 1)
        ++ headerMarker ++ [10] ++ jsonMarshal h ++ [10]
        ++ bodyMarker ++ [10] ++ b
      = bannerL1 ++ 10 :: (bannerL2a ++ (natDecimal h.total ++ (bannerL2b ++ 10 :: (bannerL3a ++ (intDecimal h.index ++ (bannerL3b ++ 10 :: (bannerL4a ++ (natDecimal (h.threshold - 1) ++ (bannerL4b ++ 10 :: (bannerL5 ++ 10 :: (bannerL6 ++ 10 :: (headerMarker ++ 10 :: (jsonMarshal h ++ 10 :: (bodyMarker ++ 10 :: b)))))))))))))) := by
    simp only [magicText, List.append_assoc, List.singleton_append, List.cons_append,
      List.nil_append]
  rw [harg]
  unfold newReader
  have hscan : scanForMarker 50 (bannerL1 ++ 10 :: (bannerL2a ++ (natDecimal h.total ++ (bannerL2b ++ 10 :: (bannerL3a ++ (intDecimal h.index ++ (bannerL3b ++ 10 :: (bannerL4a ++ (natDecimal (h.threshold - 1) ++ (bannerL4b ++ 10 :: (bannerL5 ++ 10 :: (bannerL6 ++ 10 :: (headerMarker ++ 10 :: (jsonMarshal h ++ 10 :: (bodyMarker ++ 10 :: b)))))))))))))))
      = some (jsonMarshal h ++ 10 :: (bodyMarker ++ 10 :: b)) := by
    rw [scanForMarker_skip 50 (by decide) bannerL1 _ (by decide) (by decide)]
    rw [scanForMarker_skip3 (50 - 1) (by decide) bannerL2a (natDecimal h.total)
      bannerL2b _ (by decide) (natDecimal_not_ten _) (by decide)
      (trimSpace_ne ((bannerL2a ++ (natDecimal h.total ++ bannerL2b)) ++ [10]) 35
        (by rfl) (by decide) headerMarker (by decide))]
    rw [scanForMarker_skip3 (50 - 1 - 1) (by decide) bannerL3a (intDecimal h.index)
      bannerL3b _ (by decide) (intDecimal_not_ten _) (by decide)
      (trimSpace_ne ((bannerL3a ++ (intDecimal h.index ++ bannerL3b)) ++ [10]) 35
        (by rfl) (by decide) headerMarker (by decide))]
    rw [scanForMarker_skip3 (50 - 1 - 1 - 1) (by decide) bannerL4a
      (natDecimal (h.threshold - 1)) bannerL4b _ (by decide)
      (natDecimal_not_ten _) (by decide)
      (trimSpace_ne ((bannerL4a ++ (natDecimal (h.threshold - 1) ++ bannerL4b)) ++ [10]) 35
        (by rfl) (by decide) headerMarker (by decide))]
    rw [scanForMarker_skip (50 - 1 - 1 - 1 - 1) (by decide) bannerL5 _
      (by decide) (by decide)]
    rw [scanForMarker_skip (50 - 1 - 1 - 1 - 1 - 1) (by decide) bannerL6 _
      (by decide) (by decide)]
    exact scanForMarker_hit _ (by decide) _
  rw [hscan]
  dsimp only
  have hjhead : (jsonMarshal h ++ [10]).head? = some 123 := by
    cases hJ : jsonMarshal h with
    | nil => rw [hJ] at hhead; cases hhead
    | cons x tl => rw [hJ] at hhead; exact hhead
  have hne : trimSpace (jsonMarshal h ++ [10]) ≠ bodyMarker :=
    trimSpace_ne _ 123 hjhead (by decide) bodyMarker (by decide)
  have hf1 : (jsonMarshal h ++ 10 :: (bodyMarker ++ 10 :: b)).length + 1 ≠ 0 := by
    omega
  have hf2 : (jsonMarshal h ++ 10 :: (bodyMarker ++ 10 :: b)).length + 1 - 1 ≠ 0 := by
    simp only [Nat.add_sub_cancel, List.length_append, List.length_cons]
    omega
  rw [readUntilBody_skip _ hf1 (jsonMarshal h) _ hnl hne,
    readUntilBody_hit _ hf2 b]
  dsimp only
  rw [List.append_nil, hround]
  dsimp only
  rw [hvalid]

/-- A concrete valid header for container witnesses. -/
def hdrW : Header := Header.mk "f" 0 1 3 2 [1]

/-- A toy `json.Marshal` model reflecting the documented shape of its
output on `Header`: it emits braces and no newline. -/
def jsonMarshalToy : Header → List Nat := fun _ => [123, 125]

/-- A toy `json.Unmarshal` model inverting `jsonMarshalToy` on the one
line the writer emits for `hdrW`. -/
def jsonUnmarshalToy : List Nat → Option Header := fun l =>
  if l = [123, 125, 10] then some hdrW else none

/-- Witness for C7: the concrete container written for `hdrW` with body
[7, 8] parses back to `hdrW` and [7, 8]. -/
theorem container_write_read_roundtrip_witness :
    newReader jsonUnmarshalToy
      (magicText 3 1 1 ++ headerMarker ++ [10] ++ jsonMarshalToy hdrW ++ [10]
        ++ bodyMarker ++ [10] ++ [7, 8])
      = Except.ok (hdrW, [7, 8]) :=
  container_write_read_roundtrip jsonMarshalToy jsonUnmarshalToy hdrW [7, 8]
    (magicText 3 1 1 ++ headerMarker ++ [10] ++ jsonMarshalToy hdrW ++ [10]
      ++ bodyMarker ++ [10] ++ [7, 8])
    rfl (by decide) rfl rfl rfl

/-- C8 amended: the reader rejects every stream whose bounded 50-line
scan finds no line trimming to the header marker — in particular any
stream with no newline byte at all — and headerless writer output is the
raw body verbatim, so such bodies are rejected; but a headerless body
that happens to contain the marker within its first 50 lines is not
necessarily rejected (see the counterexample). -/
theorem container_reader_rejects_markerless :
    (∀ (jsonUnmarshal : List Nat → Option Header) (s : List Nat),
       scanForMarker 50 s = none →
       newReader jsonUnmarshal s
         = Except.error "invalid format: could not find header marker") ∧
    (∀ (jsonUnmarshal : List Nat → Option Header) (s : List Nat),
       (10 : Nat) ∉ s →
       newReader jsonUnmarshal s
         = Except.error "invalid format: could not find header marker") ∧
    (∀ (jsonMarshal : Header → List Nat) (h : Header) (b : List Nat),
       writerWrite jsonMarshal h b true = Except.ok b) ∧
    (∀ (jsonMarshal : Header → List Nat) (jsonUnmarshal : List Nat → Option Header)
       (h : Header) (b out : List Nat),
       writerWrite jsonMarshal h b true = Except.ok out →
       scanForMarker 50 out = none →
       newReader jsonUnmarshal out
         = Except.error "invalid format: could not find header marker") := by
  have hnone : ∀ (jsonUnmarshal : List Nat → Option Header) (s : List Nat),
      scanForMarker 50 s = none →
      newReader jsonUnmarshal s
        = Except.error "invalid format: could not find header marker" := by
    intro jsonUnmarshal s hs
    unfold newReader
    rw [hs]
  refine ⟨hnone, ?_, fun _ _ _ => rfl, fun jm ju h b out hw hs => hnone ju out hs⟩
  intro jsonUnmarshal s h10
  refine hnone jsonUnmarshal s ?_
  show scanForMarker (49 + 1) s = none
  have h1 : scanForMarker (49 + 1) s
      = match splitAtNewline s with
        | none => none
        | some p =>
          if trimSpace p.1 = headerMarker then some p.2
          else scanForMarker 49 p.2 := rfl
  rw [h1, splitAtNewline_none s h10]

/-- Bytes of the compact JSON encoding `json.Marshal` produces for the
header `hdrW` (struct field order, no whitespace, `[]byte` key fragment
base64-encoded): the text
`\x7b"originalFilename":"f","timestamp":0,"index":1,"total":3,"threshold":2,"keyFragment":"AQ=="\x7d`. -/
def jsonHdrC8 : List Nat := [123, 34, 111, 114, 105, 103, 105, 110, 97, 108, 70, 105, 108, 101, 110, 97, 109, 101, 34, 58, 34, 102, 34, 44, 34, 116, 105, 109, 101, 115, 116, 97, 109, 112, 34, 58, 48, 44, 34, 105, 110, 100, 101, 120, 34, 58, 49, 44, 34, 116, 111, 116, 97, 108, 34, 58, 51, 44, 34, 116, 104, 114, 101, 115, 104, 111, 108, 100, 34, 58, 50, 44, 34, 107, 101, 121, 70, 114, 97, 103, 109, 101, 110, 116, 34, 58, 34, 65, 81, 61, 61, 34, 125]

/-- Models `json.Marshal` on `Header` as the documented encoder behaves at
`hdrW`: the compact encoding `jsonHdrC8`. -/
def jsonMarshalC8 : Header → List Nat := fun _ => jsonHdrC8

/-- Models `json.Unmarshal` on the one line the counterexample stream
contains: on the marshalled encoding of `hdrW` (with the trailing newline
the reader accumulates, which the decoder ignores as whitespace) it
returns `hdrW`, as the documented decoder does on the encoder's own
output. -/
def jsonUnmarshalC8 : List Nat → Option Header := fun l =>
  if l = jsonHdrC8 ++ [10] then some hdrW else none

/-- Counterexample to C8 as stated: a headerless write emits the raw body
unchanged, and a body that itself begins with a well-formed container —
marker line, the compact `json.Marshal` encoding of the valid header
`hdrW`, body marker — is then accepted by the reader, not rejected. -/
theorem headerless_output_accepted_by_reader :
    writerWrite jsonMarshalC8 hdrW
        (headerMarker ++ 10 :: (jsonHdrC8 ++ 10 :: (bodyMarker ++ 10 :: [7])))
        true
      = Except.ok (headerMarker ++ 10 :: (jsonHdrC8 ++ 10 :: (bodyMarker ++ 10 :: [7]))) ∧
    newReader jsonUnmarshalC8
        (headerMarker ++ 10 :: (jsonHdrC8 ++ 10 :: (bodyMarker ++ 10 :: [7])))
      = Except.ok (hdrW, [7]) := by
  refine ⟨rfl, ?_⟩
  rfl

/-! ## LSB steganography (package stego)

An image is modelled as its pixel list in the row-major order both loops
of the Go code traverse, each pixel its (R, G, B) channels (alpha is
never touched).  `Embed` writes the payload bits, most significant bit of
each byte first, into the least significant bits of the channels;
`Extract` reads the channel LSB stream back.  The imperative
`dataLen |= 1 << (31-i)` and `data[bytePos] |= 1 << bitPos`
accumulations, whose set bits are pairwise distinct, are embedded as sums
over the bit positions, and `val & 1` as `% 2`. -/

/-- Embeds `binary.BigEndian.PutUint32(lengthBuf, uint32(len(data)))`:
the four big-endian bytes of the length truncated to 32 bits. -/
def be32 (n : Nat) : List Nat :=
  [n % 4294967296 / 16777216 % 256, n % 4294967296 / 65536 % 256,
   n % 4294967296 / 256 % 256, n % 4294967296 % 256]

/-- Bit `k` (in embedding order) of the payload:
`(fullPayload[k/8] >> (7 - k%8)) & 1`. -/
def payloadBit (p : List Nat) (k : Nat) : Nat :=
  p.getD (k / 8) 0 / 2 ^ (7 - k % 8) % 2

/-- Embeds the `setLSB` helper of `Embed`:
`*val = (*val & 0xFE) | bit` clears the LSB and ors the payload bit in. -/
def setLSB (v bit : Nat) : Nat := v / 2 * 2 + bit

/-- One pixel of the embedded image: each of R, G, B receives the next
payload bit while bits remain (`bitIndex < payloadBits`) and is kept
unchanged afterwards. -/
def embedPixel (fullPayload : List Nat) (p : Nat × (Nat × Nat × Nat)) :
    Nat × Nat × Nat :=
  (if 3 * p.1 < fullPayload.length * 8
     then setLSB p.2.1 (payloadBit fullPayload (3 * p.1)) else p.2.1,
   if 3 * p.1 + 1 < fullPayload.length * 8
     then setLSB p.2.2.1 (payloadBit fullPayload (3 * p.1 + 1)) else p.2.2.1,
   if 3 * p.1 + 2 < fullPayload.length * 8
     then setLSB p.2.2.2 (payloadBit fullPayload (3 * p.1 + 2)) else p.2.2.2)

/-- Embeds `stego.Embed`: the capacity check
`(4 + len(data)) * 8 > numPixels * 3`, then LSB-embedding of the payload
`[Length (32-bit big-endian)] + [Data]` over the pixel stream. -/
def Embed (carrier : List (Nat × Nat × Nat)) (data : List Nat) :
    Except String (List (Nat × Nat × Nat)) :=
  if (4 + data.length) * 8 > carrier.length * 3 then
    .error "message too large for carrier image"
  else
    .ok (carrier.enum.map (embedPixel (be32 data.length ++ data)))

/-- The LSB stream `val & 1` of the R, G, B channels in scan order, as
`Extract` reads it. -/
def lsbBits (img : List (Nat × Nat × Nat)) : List Nat :=
  img.flatMap (fun c => [c.1 % 2, c.2.1 % 2, c.2.2 % 2])

/-- The 32-bit big-endian length `Extract` assembles from the first 32
LSBs. -/
def extractLen (img : List (Nat × Nat × Nat)) : Nat :=
  (List.range 32).foldl (fun acc i => acc + (lsbBits img).getD i 0 * 2 ^ (31 - i)) 0

/-- Embeds `stego.Extract`: fewer than 32 available bits leaves the
length phase unfinished (`ErrNoHiddenData`); the assembled length is
sanity-checked (`dataLen == 0 || int(dataLen)*8 > width*height*3 - 32`),
which also guarantees the remaining bits suffice; the data bytes are then
assembled from the following `dataLen*8` bits, most significant first. -/
def Extract (img : List (Nat × Nat × Nat)) : Except String (List Nat) :=
  if (lsbBits img).length < 32 then
    .error "could not extract hidden data (invalid length prefix)"
  else if extractLen img = 0 ∨ (lsbBits img).length - 32 < extractLen img * 8 then
    .error "could not extract hidden data (invalid length prefix)"
  else
    .ok ((List.range (extractLen img)).map (fun j =>
      (List.range 8).foldl
        (fun acc k => acc + (lsbBits img).getD (32 + 8 * j + k) 0 * 2 ^ (7 - k)) 0))

theorem payloadBit_lt_two (p : List Nat) (k : Nat) : payloadBit p k < 2 :=
  Nat.mod_lt _ (by omega)

theorem bits_sum_recover : ∀ (m u : Nat), u < 2 ^ m →
    ∑ e ∈ Finset.range m, u / 2 ^ e % 2 * 2 ^ e = u := by
  intro m
  induction m with
  | zero =>
    intro u hu
    interval_cases u
    simp
  | succ m ih =>
    intro u hu
    rw [Finset.sum_range_succ']
    have hstep : ∀ i ∈ Finset.range m, u / 2 ^ (i + 1) % 2 * 2 ^ (i + 1)
        = u / 2 / 2 ^ i % 2 * 2 ^ i * 2 := by
      intro i _
      have hdiv : u / 2 / 2 ^ i = u / 2 ^ (i + 1) := by
        rw [Nat.div_div_eq_div_mul, pow_succ, Nat.mul_comm]
      rw [← hdiv, pow_succ]
      ring
    rw [Finset.sum_congr rfl hstep, ← Finset.sum_mul]
    have hlt : u / 2 < 2 ^ m := by
      have h2 : (2 : Nat) ^ (m + 1) = 2 ^ m * 2 := pow_succ 2 m
      omega
    rw [ih (u / 2) hlt]
    have h0 : u / 2 ^ 0 % 2 * 2 ^ 0 = u % 2 := by norm_num
    rw [h0]
    omega

theorem payloadBit_be32 (n : Nat) (d : List Nat) (i : Nat) (hi : i < 32) :
    payloadBit (be32 n ++ d) i = n % 4294967296 / 2 ^ (31 - i) % 2 := by
  have hj : i / 8 = 0 ∨ i / 8 = 1 ∨ i / 8 = 2 ∨ i / 8 = 3 := by omega
  have hgetD : (be32 n ++ d).getD (i / 8) 0
      = n % 4294967296 / 2 ^ (8 * (3 - i / 8)) % 256 := by
    rcases hj with h | h | h | h
    · rw [h]
      rfl
    · rw [h]
      rfl
    · rw [h]
      rfl
    · rw [h, show (8 * (3 - 3)) = 0 from rfl, pow_zero, Nat.div_one]
      rfl
  unfold payloadBit
  rw [hgetD]
  have hkey : ∀ (x m : Nat), m < 8 → x % 256 / 2 ^ m % 2 = x / 2 ^ m % 2 := by
    intro x m hm
    have h1 : (256 : Nat) = 2 ^ m * 2 ^ (8 - m) := by
      rw [← pow_add, show m + (8 - m) = 8 from by omega]
      rfl
    rw [h1, Nat.mod_mul_right_div_self]
    have h2 : (2 : Nat) ^ (8 - m) = 2 * 2 ^ (7 - m) := by
      rw [show 8 - m = 1 + (7 - m) from by omega, pow_add, pow_one]
    rw [h2]
    exact Nat.mod_mod_of_dvd _ (dvd_mul_right 2 _)
  rw [hkey _ _ (by omega)]
  rw [Nat.div_div_eq_div_mul, ← pow_add]
  rw [show 8 * (3 - i / 8) + (7 - i % 8) = 31 - i from by omega]

theorem payloadBit_data (n : Nat) (d : List Nat) (j k : Nat) (hk : k < 8) :
    payloadBit (be32 n ++ d) (32 + 8 * j + k) = d.getD j 0 / 2 ^ (7 - k) % 2 := by
  unfold payloadBit
  rw [show (32 + 8 * j + k) / 8 = 4 + j from by omega,
      show (32 + 8 * j + k) % 8 = k from by omega]
  have hlen4 : (be32 n).length = 4 := rfl
  rw [List.getD_append_right _ _ _ _ (by rw [hlen4]; omega), hlen4,
    show 4 + j - 4 = j from by omega]

theorem payload_sum_len (n : Nat) (d : List Nat) :
    ∑ i ∈ Finset.range 32, payloadBit (be32 n ++ d) i * 2 ^ (31 - i)
      = n % 4294967296 := by
  rw [Finset.sum_congr rfl (fun i hi => by
    rw [payloadBit_be32 n d i (Finset.mem_range.mp hi)])]
  have h := Finset.sum_range_reflect
    (fun k => n % 4294967296 / 2 ^ k % 2 * 2 ^ k) 32
  norm_num at h
  rw [h]
  refine bits_sum_recover 32 _ ?_
  have h32 : (2 : Nat) ^ 32 = 4294967296 := by norm_num
  rw [h32]
  exact Nat.mod_lt _ (by norm_num)

theorem byte_sum_recover (v : Nat) (hv : v < 256) :
    ∑ k ∈ Finset.range 8, v / 2 ^ (7 - k) % 2 * 2 ^ (7 - k) = v := by
  have h := Finset.sum_range_reflect (fun k => v / 2 ^ k % 2 * 2 ^ k) 8
  norm_num at h
  rw [h]
  refine bits_sum_recover 8 v ?_
  have h8 : (2 : Nat) ^ 8 = 256 := by norm_num
  omega

theorem lsbBits_cons (c : Nat × Nat × Nat) (rest : List (Nat × Nat × Nat)) :
    lsbBits (c :: rest) = c.1 % 2 :: c.2.1 % 2 :: c.2.2 % 2 :: lsbBits rest := rfl

theorem lsbBits_length (img : List (Nat × Nat × Nat)) :
    (lsbBits img).length = img.length * 3 := by
  induction img with
  | nil => rfl
  | cons c rest ih =>
    rw [lsbBits_cons]
    simp only [List.length_cons, ih]
    omega

/-- The channel `Extract` reads at offset `k` of a pixel. -/
def chanAt (c : Nat × Nat × Nat) (k : Nat) : Nat :=
  if k = 0 then c.1 else if k = 1 then c.2.1 else c.2.2

theorem lsbBits_getD (img : List (Nat × Nat × Nat)) :
    ∀ (i : Nat), i < img.length * 3 →
      (lsbBits img).getD i 0 = chanAt (img.getD (i / 3) (0, 0, 0)) (i % 3) % 2 := by
  induction img with
  | nil =>
    intro i hi
    simp at hi
  | cons c rest ih =>
    intro i hi
    rw [lsbBits_cons]
    by_cases h3 : i < 3
    · have hcases : i = 0 ∨ i = 1 ∨ i = 2 := by omega
      rcases hcases with rfl | rfl | rfl
      · rfl
      · rfl
      · rfl
    · have hstep : ∀ (a b cc : Nat) (L : List Nat) (m : Nat),
          (a :: b :: cc :: L).getD (m + 3) 0 = L.getD m 0 := fun _ _ _ _ _ => rfl
      have hi3 : i = (i - 3) + 3 := by omega
      rw [hi3, hstep]
      rw [show ((i - 3) + 3) / 3 = (i - 3) / 3 + 1 from by omega,
          show ((i - 3) + 3) % 3 = (i - 3) % 3 from by omega]
      rw [List.getD_cons_succ]
      refine ih (i - 3) ?_
      simp only [List.length_cons] at hi
      omega

theorem enum_map_getD {β : Type} (l : List (Nat × Nat × Nat))
    (f : Nat × (Nat × Nat × Nat) → β) (p : Nat) (hp : p < l.length) (dflt : β) :
    (l.enum.map f).getD p dflt = f (p, l.getD p (0, 0, 0)) := by
  have h1 : p < (l.enum.map f).length := by simpa using hp
  have h2 : p < l.enum.length := by simpa using hp
  rw [getD_eq_getElem_gen h1 dflt, List.getElem_map, List.getElem_enum l p h2,
    getD_eq_getElem_gen hp (0, 0, 0)]

theorem chanAt_zero (c : Nat × Nat × Nat) : chanAt c 0 = c.1 := rfl

theorem chanAt_one (c : Nat × Nat × Nat) : chanAt c 1 = c.2.1 := rfl

theorem chanAt_two (c : Nat × Nat × Nat) : chanAt c 2 = c.2.2 := rfl

theorem embedPixel_fst (fullPayload : List Nat) (p : Nat × (Nat × Nat × Nat)) :
    (embedPixel fullPayload p).1
      = if 3 * p.1 < fullPayload.length * 8
          then setLSB p.2.1 (payloadBit fullPayload (3 * p.1)) else p.2.1 := rfl

theorem embedPixel_snd_fst (fullPayload : List Nat) (p : Nat × (Nat × Nat × Nat)) :
    (embedPixel fullPayload p).2.1
      = if 3 * p.1 + 1 < fullPayload.length * 8
          then setLSB p.2.2.1 (payloadBit fullPayload (3 * p.1 + 1)) else p.2.2.1 := rfl

theorem embedPixel_snd_snd (fullPayload : List Nat) (p : Nat × (Nat × Nat × Nat)) :
    (embedPixel fullPayload p).2.2
      = if 3 * p.1 + 2 < fullPayload.length * 8
          then setLSB p.2.2.2 (payloadBit fullPayload (3 * p.1 + 2)) else p.2.2.2 := rfl

/-- C9 amended: for a non-empty payload shorter than 2^32 bytes (the
32-bit length prefix is exact there) whose bytes fit in a byte, and a
carrier with enough capacity, `Embed` succeeds and `Extract` on the
embedded image returns the payload bit for bit.  The empty payload is
embedded but rejected on extraction (see the counterexample), and a
payload of 2^32 bytes or more would wrap the length prefix. -/
theorem stego_embed_extract_roundtrip
    (img : List (Nat × Nat × Nat)) (d : List Nat)
    (hcap : (4 + d.length) * 8 ≤ img.length * 3)
    (hpos : d ≠ []) (hlen : d.length < 4294967296)
    (hbytes : ∀ b ∈ d, b < 256) :
    Embed img d = Except.ok (img.enum.map (embedPixel (be32 d.length ++ d))) ∧
    Extract (img.enum.map (embedPixel (be32 d.length ++ d))) = Except.ok d := by
  have hd1 : 0 < d.length := List.length_pos.mpr hpos
  constructor
  · unfold Embed
    rw [if_neg (by omega)]
  · have hMlen : (img.enum.map (embedPixel (be32 d.length ++ d))).length = img.length := by simp
    have hPlen : (be32 d.length ++ d).length = 4 + d.length := by
      simp [be32]
      omega
    have hbitsLen : (lsbBits (img.enum.map (embedPixel (be32 d.length ++ d)))).length = img.length * 3 := by
      rw [lsbBits_length, hMlen]
    have hbit : ∀ i, i < (4 + d.length) * 8 →
        (lsbBits (img.enum.map (embedPixel (be32 d.length ++ d)))).getD i 0 = payloadBit (be32 d.length ++ d) i := by
      intro i hi
      have hiM : i < img.length * 3 := by omega
      rw [lsbBits_getD (img.enum.map (embedPixel (be32 d.length ++ d))) i (by rw [hMlen]; exact hiM)]
      rw [enum_map_getD img (embedPixel (be32 d.length ++ d)) (i / 3) (by omega) (0, 0, 0)]
      have hb := payloadBit_lt_two (be32 d.length ++ d) i
      have h3 : i % 3 = 0 ∨ i % 3 = 1 ∨ i % 3 = 2 := by omega
      rcases h3 with h3 | h3 | h3 <;> rw [h3]
      · rw [chanAt_zero, embedPixel_fst]
        dsimp only
        rw [show 3 * (i / 3) = i from by omega,
          if_pos (by rw [hPlen]; exact hi)]
        unfold setLSB
        omega
      · rw [chanAt_one, embedPixel_snd_fst]
        dsimp only
        rw [show 3 * (i / 3) + 1 = i from by omega,
          if_pos (by rw [hPlen]; exact hi)]
        unfold setLSB
        omega
      · rw [chanAt_two, embedPixel_snd_snd]
        dsimp only
        rw [show 3 * (i / 3) + 2 = i from by omega,
          if_pos (by rw [hPlen]; exact hi)]
        unfold setLSB
        omega
    have hdataLen : extractLen (img.enum.map (embedPixel (be32 d.length ++ d))) = d.length := by
      unfold extractLen
      rw [foldl_add_range, zero_add]
      have hterm : ∀ i ∈ Finset.range 32,
          (lsbBits (img.enum.map (embedPixel (be32 d.length ++ d)))).getD i 0 * 2 ^ (31 - i)
            = payloadBit (be32 d.length ++ d) i * 2 ^ (31 - i) := by
        intro i hi
        have hi32 := Finset.mem_range.mp hi
        rw [hbit i (by omega)]
      rw [Finset.sum_congr rfl hterm, payload_sum_len]
      exact Nat.mod_eq_of_lt hlen
    unfold Extract
    rw [hbitsLen, hdataLen]
    rw [if_neg (show ¬ img.length * 3 < 32 from by omega)]
    rw [if_neg (show ¬ (d.length = 0 ∨ img.length * 3 - 32 < d.length * 8) from by omega)]
    refine congrArg Except.ok ?_
    refine Eq.trans (List.map_congr_left ?_) (map_range_getD d)
    intro j hj
    have hjlt : j < d.length := List.mem_range.mp hj
    rw [foldl_add_range, zero_add]
    have hterm : ∀ k ∈ Finset.range 8,
        (lsbBits (img.enum.map (embedPixel (be32 d.length ++ d)))).getD (32 + 8 * j + k) 0 * 2 ^ (7 - k)
          = d.getD j 0 / 2 ^ (7 - k) % 2 * 2 ^ (7 - k) := by
      intro k hk
      have hk8 : k < 8 := Finset.mem_range.mp hk
      rw [hbit (32 + 8 * j + k) (by omega), payloadBit_data d.length d j k hk8]
    rw [Finset.sum_congr rfl hterm]
    exact byte_sum_recover (d.getD j 0) (getD_lt_256 hbytes j)

/-- Witness for the amended C9: a 14-pixel carrier and the one-byte
payload [5] round-trip concretely. -/
theorem stego_embed_extract_roundtrip_witness :
    Embed (List.replicate 14 ((1 : Nat), (2 : Nat), (3 : Nat))) [5]
      = Except.ok ((List.replicate 14 ((1 : Nat), (2 : Nat), (3 : Nat))).enum.map
          (embedPixel (be32 ([5] : List Nat).length ++ [5]))) ∧
    Extract ((List.replicate 14 ((1 : Nat), (2 : Nat), (3 : Nat))).enum.map
        (embedPixel (be32 ([5] : List Nat).length ++ [5])))
      = Except.ok [5] :=
  stego_embed_extract_roundtrip (List.replicate 14 ((1 : Nat), (2 : Nat), (3 : Nat)))
    [5] (by decide) (by decide) (by decide) (by decide)

/-- Counterexample to C9 as stated: the empty payload fits any 11-pixel
carrier ((4+0)*8 = 32 ≤ 33 bits), `Embed` succeeds, but `Extract` hits
the `dataLen == 0` sanity check and returns `ErrNoHiddenData` instead of
the empty payload. -/
theorem stego_empty_payload_rejected :
    (4 + ([] : List Nat).length) * 8
        ≤ (List.replicate 11 ((0 : Nat), (0 : Nat), (0 : Nat))).length * 3 ∧
    Embed (List.replicate 11 ((0 : Nat), (0 : Nat), (0 : Nat))) []
      = Except.ok ((List.replicate 11 ((0 : Nat), (0 : Nat), (0 : Nat))).enum.map
          (embedPixel (be32 ([] : List Nat).length ++ []))) ∧
    Extract ((List.replicate 11 ((0 : Nat), (0 : Nat), (0 : Nat))).enum.map
        (embedPixel (be32 ([] : List Nat).length ++ [])))
      = Except.error "could not extract hidden data (invalid length prefix)" := by
  refine ⟨by decide, rfl, ?_⟩
  rfl

end Horcrux
